import Mathlib

set_option maxHeartbeats 1000000

/-!
A shallow embedding of `src/tips/deferred_acceptance.py`.

Conventions of the embedding:
* Python objects (`Student`, `School`) become Lean structures; object identity
  (Python `__eq__`/`__hash__` by `id`) is modelled by keeping a master list of
  records and referring to students/schools by their `id` elsewhere.
* In-place mutation (a student's `best_unrejected` cursor, a school's `held`
  list) is modelled by threading the updated registries through each call and
  returning them; the caller's objects after a call are the returned records.
* Fallible Python operations (`list[i]` IndexError, `dict[k]` KeyError,
  `list.index` ValueError) are modelled with `Option`: `none` is a raised
  exception.
* Python `dict`s preserve insertion order, so they are association lists;
  Python `set`s of students are lists of ids (iteration order of a Python set
  is unspecified, and no observable result of this program depends on it:
  `heapq.nlargest` with the distinct `list.index` keys arising here is
  order-independent, and all set-valued results are compared by contents).
* The orchestrator's `while` loop is given explicit fuel; `DAOut.outOfFuel` is
  kept distinct from an exception (`DAOut.err`) so that termination claims are
  real statements.  The fuel supplied by `deferred_acceptance` exceeds the
  round bound proved below.
-/

structure Student where
  id : Nat
  preferences : List Nat
  best_unrejected : Nat
deriving DecidableEq, Repr

structure School where
  id : Nat
  preferences : List Nat
  capacity : Nat
  held : List Nat
deriving DecidableEq, Repr

structure Matching where
  /-- The `matches` dict, as (student id, school id) pairs in insertion
  order; named `matches_` because `matches` is reserved in Lean. -/
  matches_ : List (Nat × Nat)
  unassigned : List Nat
deriving DecidableEq, Repr

/-- Python `list.index` restricted to the successful/raising behaviour:
`some i` is the first index of `x`, `none` is a `ValueError`. -/
def pyIndex : List Nat → Nat → Option Nat
  | [], _ => none
  | a :: as, x => if a = x then some 0 else (pyIndex as x).map (· + 1)

/-- Lookup in an insertion-ordered association list (a Python `dict`). -/
def alookup {α : Type} : List (Nat × α) → Nat → Option α
  | [], _ => none
  | (k, v) :: rest, x => if k = x then some v else alookup rest x

/-- `student_index[i]`: the student object with id `i`. -/
def findStudent? : List Student → Nat → Option Student
  | [], _ => none
  | s :: rest, i => if s.id = i then some s else findStudent? rest i

/-- `school_index[i]`: the school object with id `i`. -/
def findSchool? : List School → Nat → Option School
  | [], _ => none
  | h :: rest, i => if h.id = i then some h else findSchool? rest i

/-- Pair every element with its key value, failing if any key lookup raises. -/
def keyed (key : Nat → Option Nat) : List Nat → Option (List (Nat × Nat))
  | [] => some []
  | x :: xs => do
    let k ← key x
    let rest ← keyed key xs
    return (x, k) :: rest

def insertDesc (p : Nat × Nat) : List (Nat × Nat) → List (Nat × Nat)
  | [] => [p]
  | q :: qs => if q.2 < p.2 then p :: q :: qs else q :: insertDesc p qs

/-- Insertion sort, descending by the second component. -/
def sortDesc : List (Nat × Nat) → List (Nat × Nat)
  | [] => []
  | p :: ps => insertDesc p (sortDesc ps)

/-- `heapq.nlargest(n, l, key=key)`: the `n` elements of `l` whose key is
largest, largest first.  The keys arising in this program (first-occurrence
indices of distinct ids) are pairwise distinct, so tie order is immaterial. -/
def nlargest (n : Nat) (l : List Nat) (key : Nat → Option Nat) : Option (List Nat) :=
  (keyed key l).map (fun kl => ((sortDesc kl).take n).map Prod.fst)

/-- Append `sid` to the bucket of school `hId` in the applications dict. -/
def bucketAppend : List (Nat × List Nat) → Nat → Nat → List (Nat × List Nat)
  | [], _, _ => []
  | (k, b) :: rest, hId, sid =>
    if k = hId then (k, b ++ [sid]) :: rest else (k, b) :: bucketAppend rest hId sid

/-- One iteration of `for student in to_apply: ...` in `run_round`. -/
def propose1 (students : List Student) (schools : List School)
    (apps : List (Nat × List Nat)) (sid : Nat) : Option (List (Nat × List Nat)) := do
  let s ← findStudent? students sid
  let hId ← s.preferences[s.best_unrejected]?
  let _ ← findSchool? schools hId
  return bucketAppend apps hId sid

def proposeAll (students : List Student) (schools : List School) :
    List (Nat × List Nat) → List Nat → Option (List (Nat × List Nat))
  | apps, [] => some apps
  | apps, sid :: rest => do
    let apps' ← propose1 students schools apps sid
    proposeAll students schools apps' rest

/-- The `new_held_students` dict comprehension. -/
def computeHeld (schools : List School) :
    List (Nat × List Nat) → Option (List (Nat × List Nat))
  | [] => some []
  | (k, bucket) :: rest => do
    let sch ← findSchool? schools k
    let nh ← nlargest sch.capacity bucket (pyIndex sch.preferences)
    let others ← computeHeld schools rest
    return (k, nh) :: others

/-- The `school.held = new_held_students[id]` mutation over all schools. -/
def setHelds (newHeld : List (Nat × List Nat)) : List School → Option (List School)
  | [] => some []
  | sch :: rest => do
    let nh ← alookup newHeld sch.id
    let rest' ← setHelds newHeld rest
    return { sch with held := nh } :: rest'

/-- `rejections |= set(applications[id]) - set(new_held_students[id])`
accumulated over all schools (contents; the set is deduplicated later). -/
def computeRejections (schools : List School)
    (apps newHeld : List (Nat × List Nat)) : Option (List Nat) :=
  match schools with
  | [] => some []
  | sch :: rest => do
    let bucket ← alookup apps sch.id
    let nh ← alookup newHeld sch.id
    let others ← computeRejections rest apps newHeld
    return bucket.filter (fun x => x ∉ nh) ++ others

/-- `set(students[student_id] for student_id in rejections)`: dict lookups. -/
def lookupAll (students : List Student) : List Nat → Option (List Student)
  | [] => some []
  | i :: is => do
    let s ← findStudent? students i
    let rest ← lookupAll students is
    return s :: rest

/-- `run_round`.  On an empty `to_apply` the Python code executes
`return True`, so the result type is a sum: `Sum.inl` is the bool early
return, `Sum.inr (schools', rejected)` is the normal return together with
the mutated schools. -/
def run_round (students : List Student) (schools : List School)
    (to_apply : List Nat) : Option (Sum Bool (List School × List Nat)) :=
  if to_apply.isEmpty then some (Sum.inl true)
  else do
    let apps ← proposeAll students schools (schools.map (fun h => (h.id, h.held))) to_apply
    let newHeld ← computeHeld schools apps
    let schools' ← setHelds newHeld schools
    let rejRaw ← computeRejections schools apps newHeld
    let rej := rejRaw.dedup
    let _ ← lookupAll students rej
    return Sum.inr (schools', rej)

/-- `for student in rejections: student.best_unrejected += 1`. -/
def advanceCursors (students : List Student) (rej : List Nat) : List Student :=
  students.map (fun s =>
    if s.id ∈ rej then { s with best_unrejected := s.best_unrejected + 1 } else s)

/-- `student.best_unrejected >= len(student.preferences)` for the student
object with id `i`. -/
def isExhausted (students : List Student) (i : Nat) : Bool :=
  match findStudent? students i with
  | some s => s.preferences.length ≤ s.best_unrejected
  | none => false

/-- Python `set.union`, keeping first-occurrence order. -/
def pyUnion (a b : List Nat) : List Nat :=
  a ++ b.filter (fun x => x ∉ a)

structure DAState where
  students : List Student
  schools : List School
  to_apply : List Nat
  unassigned : List Nat
deriving DecidableEq, Repr

/-- One iteration of the orchestrator's `while` loop (the identity once
`to_apply` is empty); `none` is a raised exception. -/
def daStep (st : DAState) : Option DAState :=
  if st.to_apply.isEmpty then some st
  else
    match run_round st.students st.schools st.to_apply with
    | some (Sum.inr (schs', rej)) =>
      let sts' := advanceCursors st.students rej
      let newUn := rej.filter (fun i => isExhausted sts' i)
      let un' := pyUnion st.unassigned newUn
      some ⟨sts', schs', rej.filter (fun i => i ∉ un'), un'⟩
    | _ => none

/-- Python dict assignment `d[k] = v`: overwrite in place or append. -/
def pyDictInsert (l : List (Nat × Nat)) (k v : Nat) : List (Nat × Nat) :=
  if l.any (fun p => p.1 = k) then l.map (fun p => if p.1 = k then (k, v) else p)
  else l ++ [(k, v)]

def addHeldPairs (students : List Student) (schId : Nat) :
    List Nat → List (Nat × Nat) → Option (List (Nat × Nat))
  | [], acc => some acc
  | sid :: rest, acc => do
    let _ ← findStudent? students sid
    addHeldPairs students schId rest (pyDictInsert acc sid schId)

/-- The final `matches` dict comprehension
`{student_index[sid]: school for school in schools for sid in school.held}`. -/
def buildMatches (students : List Student) :
    List School → List (Nat × Nat) → Option (List (Nat × Nat))
  | [], acc => some acc
  | sch :: rest, acc => do
    let acc' ← addHeldPairs students sch.id sch.held acc
    buildMatches students rest acc'

def buildMatching (st : DAState) : Option Matching := do
  let ms ← buildMatches st.students st.schools []
  return ⟨ms, st.unassigned⟩

inductive DAOut where
  | ok : Matching → List Student → List School → DAOut
  | err : DAOut
  | outOfFuel : DAOut
deriving DecidableEq, Repr

/-- Return from `deferred_acceptance`: the Matching plus the final (mutated)
student and school objects the caller's references now see. -/
def daFinish (st : DAState) : DAOut :=
  match buildMatching st with
  | some m => DAOut.ok m st.students st.schools
  | none => DAOut.err

/-- The orchestrator's `while len(to_apply) > 0` loop, with fuel. -/
def daLoop : Nat → DAState → DAOut
  | 0, st => if st.to_apply.isEmpty then daFinish st else DAOut.outOfFuel
  | fuel + 1, st =>
    if st.to_apply.isEmpty then daFinish st
    else
      match daStep st with
      | some st' => daLoop fuel st'
      | none => DAOut.err

/-- `daStep` iterated `k` times. -/
def daIter : Nat → DAState → Option DAState
  | 0, st => some st
  | k + 1, st => (daStep st).bind (daIter k)

def daInit (students : List Student) (schools : List School) : DAState :=
  ⟨students, schools, students.map (fun s => s.id), []⟩

def totalPrefLen (students : List Student) : Nat :=
  (students.map (fun s => s.preferences.length)).sum

/-- `deferred_acceptance`.  The fuel strictly exceeds the round bound proved
below, so the Python loop (which has no fuel) and this definition agree on
every input on which Python terminates or raises. -/
def deferred_acceptance (students : List Student) (schools : List School) : DAOut :=
  daLoop (totalPrefLen students + students.length + 1) (daInit students schools)

/-- `precedes(L, item1, item2)` of `find_unstable_pair`; `none` is the
`ValueError` from `list.index`. -/
def precedes? (L : List Nat) (a b : Nat) : Option Bool := do
  let i ← pyIndex L a
  let j ← pyIndex L b
  return decide (i < j)

/-- `student_prefers`: the `ValueError` is caught and turned into `False`. -/
def studentPrefers (s : Student) (hId aId : Nat) : Bool :=
  match precedes? s.preferences hId aId with
  | some b => b
  | none => false

def cmpList (prefs : List Nat) (sid : Nat) : List Nat → Option (List Bool)
  | [] => some []
  | a :: as => do
    let b ← precedes? prefs sid a
    let bs ← cmpList prefs sid as
    return b :: bs

/-- `school_prefers`, as written in the source: the comprehension's
`if school == school` compares the bound variable with itself, so
`assigned_students` is every matched student; the `ValueError` raised by
`precedes` here is not caught. -/
def schoolPrefers (m : Matching) (h : School) (s : Student) : Option Bool :=
  (cmpList h.preferences s.id (m.matches_.map Prod.fst)).map (fun l => l.any id)

/-- The scan of `find_unstable_pair` over the applicant x host product;
students in `matching.unassigned` are skipped by the guard. -/
def fupGo (m : Matching) : List (Student × School) → Option (Option (Nat × Nat))
  | [] => some none
  | (s, h) :: rest =>
    if s.id ∈ m.unassigned then fupGo m rest
    else
      match alookup m.matches_ s.id with
      | none => none
      | some aId =>
        if h.id = aId then fupGo m rest
        else if studentPrefers s h.id aId then
          match schoolPrefers m h s with
          | none => none
          | some true => some (some (s.id, h.id))
          | some false => fupGo m rest
        else fupGo m rest

/-- `find_unstable_pair`: `some (some (a, h))` is a returned pair,
`some none` is the implicit `return None`, `none` is a raised exception. -/
def find_unstable_pair (students : List Student) (schools : List School)
    (m : Matching) : Option (Option (Nat × Nat)) :=
  fupGo m (students.flatMap (fun s => schools.map (fun h => (s, h))))

/-- Modelled from the spec (section 4.3), which defines the instability
predicate independently of the code: pair `(a, h)` is unstable iff `h` is not
`a`'s current assignment (or `a` is unassigned), and `a` strictly prefers `h`
to its current assignment (or `a` is unassigned and ranks `h` at all), and
`h` strictly prefers `a` to at least one applicant currently held by `h`
(those mapped to `h` in the matching). -/
def unstablePairSpec (m : Matching) (s : Student) (h : School) : Bool :=
  let heldAt := (m.matches_.filter (fun p => p.2 = h.id)).map Prod.fst
  let aSide :=
    match alookup m.matches_ s.id with
    | some aId => decide (aId ≠ h.id) && ((precedes? s.preferences h.id aId).getD false)
    | none => decide (h.id ∈ s.preferences)
  aSide && heldAt.any (fun j => (precedes? h.preferences s.id j).getD false)

/-! ## Derived notions used by the verification -/

/-- All ids occurring in the buckets of an applications dict. -/
def flatB (apps : List (Nat × List Nat)) : List Nat :=
  apps.flatMap (fun kb => kb.2)

def sumCur (students : List Student) : Nat :=
  (students.map (fun s => s.best_unrejected)).sum

/-- Well-formedness of an applications dict: buckets are duplicate-free and
every bucket member is a student whose cursor points at the bucket's
school. -/
def GoodApps (students : List Student) (apps : List (Nat × List Nat)) : Prop :=
  ∀ kb ∈ apps, kb.2.Nodup ∧ ∀ i ∈ kb.2, ∃ s ∈ students, s.id = i ∧
    s.best_unrejected < s.preferences.length ∧
    s.preferences[s.best_unrejected]? = some kb.1

/-- The loop invariant of `deferred_acceptance`. -/
structure DAInv (st : DAState) : Prop where
  sNodup : (st.students.map (fun s => s.id)).Nodup
  hNodup : (st.schools.map (fun h => h.id)).Nodup
  cursorLe : ∀ s ∈ st.students, s.best_unrejected ≤ s.preferences.length
  taSub : ∀ i ∈ st.to_apply, ∃ s ∈ st.students, s.id = i
  taNodup : st.to_apply.Nodup
  heldNodup : ∀ h ∈ st.schools, h.held.Nodup
  heldCap : ∀ h ∈ st.schools, h.held.length ≤ h.capacity
  heldStud : ∀ h ∈ st.schools, ∀ i ∈ h.held, ∃ s ∈ st.students, s.id = i ∧
    s.best_unrejected < s.preferences.length ∧
    s.preferences[s.best_unrejected]? = some h.id
  heldTa : ∀ h ∈ st.schools, ∀ i ∈ h.held, i ∉ st.to_apply
  unSub : ∀ i ∈ st.unassigned, ∃ s ∈ st.students, s.id = i
  unNodup : st.unassigned.Nodup
  unExh : ∀ i ∈ st.unassigned, ∀ s ∈ st.students, s.id = i →
    s.preferences.length ≤ s.best_unrejected
  cover : ∀ s ∈ st.students, s.id ∈ st.to_apply ∨
    (∃ h ∈ st.schools, s.id ∈ h.held) ∨ s.id ∈ st.unassigned
  taUn : ∀ i ∈ st.to_apply, i ∉ st.unassigned

/-- Every applicant waiting to apply still has an untried preference. -/
def TAC (st : DAState) : Prop :=
  ∀ i ∈ st.to_apply, ∀ s ∈ st.students, s.id = i →
    s.best_unrejected < s.preferences.length

/-- Cross-reference validity plus mutual ranking: every preference entry
names a supplied school, and every applicant is ranked by each school on its
list. -/
def Statics (st : DAState) : Prop :=
  (∀ s ∈ st.students, ∀ p ∈ s.preferences, ∃ h ∈ st.schools, h.id = p) ∧
  (∀ s ∈ st.students, ∀ p ∈ s.preferences, ∀ h ∈ st.schools, h.id = p →
    s.id ∈ h.preferences)

/-- What one successful non-trivial `run_round` call guarantees. -/
structure RoundPost (st : DAState) (schs' : List School) (rej : List Nat) : Prop where
  ids : schs'.map (fun h => h.id) = st.schools.map (fun h => h.id)
  fields : List.Forall₂ (fun a b => b.id = a.id ∧ b.preferences = a.preferences ∧
    b.capacity = a.capacity) st.schools schs'
  heldNodup : ∀ h ∈ schs', h.held.Nodup
  heldCap : ∀ h ∈ schs', h.held.length ≤ h.capacity
  heldStud : ∀ h ∈ schs', ∀ i ∈ h.held, ∃ s ∈ st.students, s.id = i ∧
    s.best_unrejected < s.preferences.length ∧
    s.preferences[s.best_unrejected]? = some h.id
  rejNodup : rej.Nodup
  rejStud : ∀ i ∈ rej, ∃ s ∈ st.students, s.id = i ∧
    s.best_unrejected < s.preferences.length
  heldRej : ∀ h ∈ schs', ∀ i ∈ h.held, i ∉ rej
  cover : ∀ i, (i ∈ st.to_apply ∨ ∃ h ∈ st.schools, i ∈ h.held) →
    (∃ h ∈ schs', i ∈ h.held) ∨ i ∈ rej
  rejOld : ∀ i ∈ rej, i ∈ st.to_apply ∨ ∃ h ∈ st.schools, i ∈ h.held
  heldOld : ∀ h ∈ schs', ∀ i ∈ h.held, i ∈ st.to_apply ∨ ∃ hh ∈ st.schools, i ∈ hh.held
  taCursor : ∀ i ∈ st.to_apply, ∀ s ∈ st.students, s.id = i →
    s.best_unrejected < s.preferences.length

/-! ## Basic lemmas about the list primitives -/

theorem obind_eq_some {α β : Type} {x : Option α} {f : α → Option β} {b : β} :
    x.bind f = some b ↔ ∃ a, x = some a ∧ f a = some b := by
  cases x <;> simp

theorem pyIndex_isSome_iff {l : List Nat} {x : Nat} :
    (pyIndex l x).isSome ↔ x ∈ l := by
  induction l with
  | nil => simp [pyIndex]
  | cons a as ih =>
    by_cases h : a = x
    · subst h; simp [pyIndex]
    · have hmap : ((pyIndex as x).map (· + 1)).isSome = (pyIndex as x).isSome := by
        cases pyIndex as x <;> rfl
      simp only [pyIndex, if_neg h, hmap, ih, List.mem_cons]
      exact ⟨Or.inr, fun hx => hx.resolve_left (fun he => h he.symm)⟩

theorem findStudent?_mem {sts : List Student} {i : Nat} {s : Student}
    (h : findStudent? sts i = some s) : s ∈ sts ∧ s.id = i := by
  induction sts with
  | nil => exact absurd h (by simp [findStudent?])
  | cons a rest ih =>
    unfold findStudent? at h
    by_cases ha : a.id = i
    · rw [if_pos ha] at h
      injection h with h
      subst h
      exact ⟨List.mem_cons_self _ _, ha⟩
    · rw [if_neg ha] at h
      obtain ⟨hm, hid⟩ := ih h
      exact ⟨List.mem_cons_of_mem _ hm, hid⟩

theorem findStudent?_isSome {sts : List Student} {i : Nat}
    (h : ∃ s ∈ sts, s.id = i) : (findStudent? sts i).isSome := by
  induction sts with
  | nil => simp at h
  | cons a rest ih =>
    unfold findStudent?
    by_cases ha : a.id = i
    · rw [if_pos ha]; rfl
    · rw [if_neg ha]
      apply ih
      obtain ⟨s, hs, hid⟩ := h
      rcases List.mem_cons.mp hs with rfl | hsr
      · exact absurd hid ha
      · exact ⟨s, hsr, hid⟩

theorem eq_of_mem_id {sts : List Student} (hn : (sts.map (fun s => s.id)).Nodup)
    {s t : Student} (hs : s ∈ sts) (ht : t ∈ sts) (h : s.id = t.id) : s = t :=
  List.inj_on_of_nodup_map hn hs ht h

theorem findStudent?_eq_self {sts : List Student}
    (hn : (sts.map (fun s => s.id)).Nodup) {s : Student} (hs : s ∈ sts) :
    findStudent? sts s.id = some s := by
  obtain ⟨t, ht⟩ := Option.isSome_iff_exists.mp (findStudent?_isSome ⟨s, hs, rfl⟩)
  obtain ⟨htm, htid⟩ := findStudent?_mem ht
  rw [ht, eq_of_mem_id hn htm hs htid]

theorem findSchool?_mem {schs : List School} {i : Nat} {h : School}
    (hf : findSchool? schs i = some h) : h ∈ schs ∧ h.id = i := by
  induction schs with
  | nil => exact absurd hf (by simp [findSchool?])
  | cons a rest ih =>
    unfold findSchool? at hf
    by_cases ha : a.id = i
    · rw [if_pos ha] at hf
      injection hf with hf
      subst hf
      exact ⟨List.mem_cons_self _ _, ha⟩
    · rw [if_neg ha] at hf
      obtain ⟨hm, hid⟩ := ih hf
      exact ⟨List.mem_cons_of_mem _ hm, hid⟩

theorem findSchool?_isSome {schs : List School} {i : Nat}
    (h : ∃ sch ∈ schs, sch.id = i) : (findSchool? schs i).isSome := by
  induction schs with
  | nil => simp at h
  | cons a rest ih =>
    unfold findSchool?
    by_cases ha : a.id = i
    · rw [if_pos ha]; rfl
    · rw [if_neg ha]
      apply ih
      obtain ⟨sch, hs, hid⟩ := h
      rcases List.mem_cons.mp hs with rfl | hsr
      · exact absurd hid ha
      · exact ⟨sch, hsr, hid⟩

theorem eq_of_mem_hid {schs : List School} (hn : (schs.map (fun h => h.id)).Nodup)
    {a b : School} (ha : a ∈ schs) (hb : b ∈ schs) (h : a.id = b.id) : a = b :=
  List.inj_on_of_nodup_map hn ha hb h

theorem findSchool?_eq_self {schs : List School}
    (hn : (schs.map (fun h => h.id)).Nodup) {h : School} (hs : h ∈ schs) :
    findSchool? schs h.id = some h := by
  obtain ⟨t, ht⟩ := Option.isSome_iff_exists.mp (findSchool?_isSome ⟨h, hs, rfl⟩)
  obtain ⟨htm, htid⟩ := findSchool?_mem ht
  rw [ht, eq_of_mem_hid hn htm hs htid]

theorem alookup_mem {α : Type} {l : List (Nat × α)} {k : Nat} {v : α}
    (h : alookup l k = some v) : (k, v) ∈ l := by
  induction l with
  | nil => exact absurd h (by simp [alookup])
  | cons a rest ih =>
    obtain ⟨k0, v0⟩ := a
    unfold alookup at h
    by_cases hk : k0 = k
    · rw [if_pos hk] at h
      injection h with h
      subst h; subst hk
      exact List.mem_cons_self _ _
    · rw [if_neg hk] at h
      exact List.mem_cons_of_mem _ (ih h)

theorem alookup_isSome {α : Type} {l : List (Nat × α)} {k : Nat}
    (h : k ∈ l.map Prod.fst) : (alookup l k).isSome := by
  induction l with
  | nil => simp at h
  | cons a rest ih =>
    obtain ⟨k0, v0⟩ := a
    unfold alookup
    by_cases hk : k0 = k
    · rw [if_pos hk]; rfl
    · rw [if_neg hk]
      apply ih
      simp only [List.map_cons, List.mem_cons] at h
      exact h.resolve_left (fun he => hk he.symm)

theorem alookup_eq_of_mem {α : Type} {l : List (Nat × α)}
    (hn : (l.map Prod.fst).Nodup) {k : Nat} {v : α} (h : (k, v) ∈ l) :
    alookup l k = some v := by
  induction l with
  | nil => simp at h
  | cons a rest ih =>
    obtain ⟨k0, v0⟩ := a
    simp only [List.map_cons, List.nodup_cons] at hn
    unfold alookup
    rcases List.mem_cons.mp h with he | hr
    · injection he with he1 he2
      subst he1; subst he2
      rw [if_pos rfl]
    · by_cases hk : k0 = k
      · exact absurd (hk ▸ List.mem_map_of_mem Prod.fst hr) hn.1
      · rw [if_neg hk]
        exact ih hn.2 hr

theorem mem_flatB {apps : List (Nat × List Nat)} {x : Nat} :
    x ∈ flatB apps ↔ ∃ kb ∈ apps, x ∈ kb.2 := by
  unfold flatB
  exact List.mem_flatMap

theorem flatB_of_schools {schools : List School} {x : Nat} :
    x ∈ flatB (schools.map (fun h => (h.id, h.held))) ↔
      ∃ h ∈ schools, x ∈ h.held := by
  rw [mem_flatB]
  constructor
  · rintro ⟨kb, hkb, hx⟩
    obtain ⟨h, hh, rfl⟩ := List.mem_map.mp hkb
    exact ⟨h, hh, hx⟩
  · rintro ⟨h, hh, hx⟩
    exact ⟨(h.id, h.held), List.mem_map_of_mem _ hh, hx⟩

theorem mem_pyUnion {a b : List Nat} {x : Nat} :
    x ∈ pyUnion a b ↔ x ∈ a ∨ x ∈ b := by
  unfold pyUnion
  by_cases hx : x ∈ a <;> simp [List.mem_append, List.mem_filter, hx]

theorem pyUnion_nodup {a b : List Nat} (ha : a.Nodup) (hb : b.Nodup) :
    (pyUnion a b).Nodup := by
  unfold pyUnion
  refine List.Nodup.append ha (hb.filter _) ?_
  intro x hx1 hx2
  have := (List.mem_filter.mp hx2).2
  simp at this
  exact this hx1

theorem advanceCursors_map_id (sts : List Student) (rej : List Nat) :
    (advanceCursors sts rej).map (fun s => s.id) = sts.map (fun s => s.id) := by
  induction sts with
  | nil => rfl
  | cons a rest ih =>
    unfold advanceCursors at *
    simp only [List.map_cons, ih]
    by_cases h : a.id ∈ rej <;> simp [h]

theorem findStudent?_map_of_id (f : Student → Student)
    (hf : ∀ s, (f s).id = s.id) (sts : List Student) (i : Nat) :
    findStudent? (sts.map f) i = (findStudent? sts i).map f := by
  induction sts with
  | nil => rfl
  | cons a rest ih =>
    simp only [List.map_cons]
    unfold findStudent?
    by_cases h : a.id = i
    · rw [if_pos (by rw [hf]; exact h), if_pos h]
      rfl
    · rw [if_neg (by rw [hf]; exact h), if_neg h, ih]

theorem findStudent?_advance (sts : List Student) (rej : List Nat) (i : Nat) :
    findStudent? (advanceCursors sts rej) i =
      (findStudent? sts i).map (fun s =>
        if s.id ∈ rej then { s with best_unrejected := s.best_unrejected + 1 }
        else s) := by
  unfold advanceCursors
  apply findStudent?_map_of_id
  intro s
  by_cases h : s.id ∈ rej <;> simp [h]

theorem advanceCursors_mem {sts : List Student} {rej : List Nat} {t : Student}
    (h : t ∈ advanceCursors sts rej) : ∃ s ∈ sts,
      t = if s.id ∈ rej then { s with best_unrejected := s.best_unrejected + 1 }
        else s := by
  unfold advanceCursors at h
  obtain ⟨s, hs, he⟩ := List.mem_map.mp h
  exact ⟨s, hs, he.symm⟩

theorem advanceCursors_mem_of {sts : List Student} {rej : List Nat} {s : Student}
    (hs : s ∈ sts) (h : s.id ∉ rej) : s ∈ advanceCursors sts rej := by
  unfold advanceCursors
  have : s = if s.id ∈ rej then { s with best_unrejected := s.best_unrejected + 1 }
      else s := by rw [if_neg h]
  rw [this]
  exact List.mem_map_of_mem _ hs

theorem sumCur_advance (sts : List Student) (rej : List Nat) :
    sumCur (advanceCursors sts rej) =
      sumCur sts + (sts.filter (fun s => s.id ∈ rej)).length := by
  induction sts with
  | nil => rfl
  | cons a rest ih =>
    by_cases h : a.id ∈ rej
    · simp only [advanceCursors, sumCur, List.map_cons, List.sum_cons,
        List.filter_cons, decide_eq_true_eq, if_pos h, List.length_cons] at ih ⊢
      omega
    · simp only [advanceCursors, sumCur, List.map_cons, List.sum_cons,
        List.filter_cons, decide_eq_true_eq, if_neg h] at ih ⊢
      omega

theorem length_filter_eq {sts : List Student} {rej : List Nat}
    (hsub : ∀ i ∈ rej, ∃ s ∈ sts, s.id = i) (hrn : rej.Nodup)
    (hsn : (sts.map (fun s => s.id)).Nodup) :
    (sts.filter (fun s => s.id ∈ rej)).length = rej.length := by
  induction sts generalizing rej with
  | nil =>
    have : rej = [] := by
      refine List.eq_nil_iff_forall_not_mem.mpr (fun i hi => ?_)
      obtain ⟨s, hs, _⟩ := hsub i hi
      simp at hs
    simp [this]
  | cons a rest ih =>
    simp only [List.map_cons, List.nodup_cons] at hsn
    by_cases h : a.id ∈ rej
    · rw [List.filter_cons_of_pos (by simpa using h)]
      have hfil : rest.filter (fun s => decide (s.id ∈ rej)) =
          rest.filter (fun s => decide (s.id ∈ rej.erase a.id)) := by
        apply List.filter_congr
        intro s hs
        have hne : s.id ≠ a.id := by
          intro he
          exact hsn.1 (he ▸ List.mem_map_of_mem _ hs)
        simp [hrn.mem_erase_iff, hne]
      have hlen := List.length_erase_of_mem h
      have hpos : 0 < rej.length := List.length_pos_of_mem h
      have := ih ?_ (hrn.erase a.id) hsn.2
      · simp only [List.length_cons]
        rw [hfil]
        omega
      · intro i hi
        obtain ⟨s, hs, hid⟩ := hsub i (List.mem_of_mem_erase hi)
        rcases List.mem_cons.mp hs with rfl | hsr
        · exact absurd ((hrn.mem_erase_iff).mp hi).1 (not_not_intro hid.symm)
        · exact ⟨s, hsr, hid⟩
    · rw [List.filter_cons_of_neg (by simpa using h)]
      apply ih ?_ hrn hsn.2
      intro i hi
      obtain ⟨s, hs, hid⟩ := hsub i hi
      rcases List.mem_cons.mp hs with rfl | hsr
      · exact absurd (hid ▸ hi) h
      · exact ⟨s, hsr, hid⟩

theorem sumCur_le {sts : List Student}
    (h : ∀ s ∈ sts, s.best_unrejected ≤ s.preferences.length) :
    sumCur sts ≤ totalPrefLen sts :=
  List.sum_le_sum h

theorem sumCur_lt {sts : List Student} {s : Student} (hs : s ∈ sts)
    (hall : ∀ t ∈ sts, t.best_unrejected ≤ t.preferences.length)
    (hlt : s.best_unrejected < s.preferences.length) :
    sumCur sts < totalPrefLen sts := by
  induction sts with
  | nil => simp at hs
  | cons a rest ih =>
    unfold sumCur totalPrefLen at *
    simp only [List.map_cons, List.sum_cons]
    rcases List.mem_cons.mp hs with rfl | hsr
    · have h2 : (rest.map (fun s => s.best_unrejected)).sum ≤
          (rest.map (fun s => s.preferences.length)).sum :=
        List.sum_le_sum (fun t ht => hall t (List.mem_cons_of_mem _ ht))
      omega
    · have h1 := hall a (List.mem_cons_self _ _)
      have h2 := ih hsr (fun t ht => hall t (List.mem_cons_of_mem _ ht))
      omega

/-! ## Lemmas about the application buckets -/

theorem flatB_cons (p : Nat × List Nat) (rest : List (Nat × List Nat)) :
    flatB (p :: rest) = p.2 ++ flatB rest := by
  simp [flatB]

theorem bucketAppend_keys (apps : List (Nat × List Nat)) (hId sid : Nat) :
    (bucketAppend apps hId sid).map Prod.fst = apps.map Prod.fst := by
  induction apps with
  | nil => rfl
  | cons kb rest ih =>
    obtain ⟨k, b⟩ := kb
    unfold bucketAppend
    by_cases h : k = hId
    · rw [if_pos h]; simp
    · rw [if_neg h]; simp [ih]

theorem mem_bucketAppend {apps : List (Nat × List Nat)} {hId sid : Nat}
    {kb : Nat × List Nat} (h : kb ∈ bucketAppend apps hId sid) :
    ∃ b, (kb.1, b) ∈ apps ∧ (kb.2 = b ∨ (kb.1 = hId ∧ kb.2 = b ++ [sid])) := by
  induction apps with
  | nil => simp [bucketAppend] at h
  | cons p rest ih =>
    obtain ⟨k, b⟩ := p
    unfold bucketAppend at h
    by_cases hk : k = hId
    · rw [if_pos hk] at h
      rcases List.mem_cons.mp h with rfl | hr
      · exact ⟨b, List.mem_cons_self _ _, Or.inr ⟨hk, rfl⟩⟩
      · exact ⟨kb.2, List.mem_cons_of_mem _ (by simpa using hr), Or.inl rfl⟩
    · rw [if_neg hk] at h
      rcases List.mem_cons.mp h with rfl | hr
      · exact ⟨b, List.mem_cons_self _ _, Or.inl rfl⟩
      · obtain ⟨b', hb', hor⟩ := ih hr
        exact ⟨b', List.mem_cons_of_mem _ hb', hor⟩

theorem flatB_bucketAppend_sub {apps : List (Nat × List Nat)} {hId sid x : Nat}
    (h : x ∈ flatB (bucketAppend apps hId sid)) : x ∈ flatB apps ∨ x = sid := by
  rw [mem_flatB] at h
  obtain ⟨kb, hkb, hx⟩ := h
  obtain ⟨b, hb, hor⟩ := mem_bucketAppend hkb
  rcases hor with he | ⟨_, he⟩
  · exact Or.inl (mem_flatB.mpr ⟨(kb.1, b), hb, he ▸ hx⟩)
  · rw [he] at hx
    rcases List.mem_append.mp hx with h1 | h2
    · exact Or.inl (mem_flatB.mpr ⟨(kb.1, b), hb, h1⟩)
    · exact Or.inr (by simpa using h2)

theorem flatB_bucketAppend_super {apps : List (Nat × List Nat)} {hId sid x : Nat}
    (h : x ∈ flatB apps) : x ∈ flatB (bucketAppend apps hId sid) := by
  induction apps with
  | nil => simp [flatB] at h
  | cons p rest ih =>
    obtain ⟨k, b⟩ := p
    rw [flatB_cons] at h
    unfold bucketAppend
    rcases List.mem_append.mp h with h1 | h2
    · by_cases hk : k = hId
      · rw [if_pos hk, flatB_cons]
        exact List.mem_append.mpr (Or.inl (List.mem_append.mpr (Or.inl h1)))
      · rw [if_neg hk, flatB_cons]
        exact List.mem_append.mpr (Or.inl h1)
    · by_cases hk : k = hId
      · rw [if_pos hk, flatB_cons]
        exact List.mem_append.mpr (Or.inr h2)
      · rw [if_neg hk, flatB_cons]
        exact List.mem_append.mpr (Or.inr (ih h2))

theorem self_mem_flatB_bucketAppend {apps : List (Nat × List Nat)} {hId sid : Nat}
    (h : hId ∈ apps.map Prod.fst) : sid ∈ flatB (bucketAppend apps hId sid) := by
  induction apps with
  | nil => simp at h
  | cons p rest ih =>
    obtain ⟨k, b⟩ := p
    unfold bucketAppend
    by_cases hk : k = hId
    · rw [if_pos hk, flatB_cons]
      exact List.mem_append.mpr (Or.inl (by simp))
    · rw [if_neg hk, flatB_cons]
      refine List.mem_append.mpr (Or.inr (ih ?_))
      simp only [List.map_cons, List.mem_cons] at h
      exact h.resolve_left (fun he => hk he.symm)

/-! ## Lemmas about `nlargest` -/

theorem keyed_isSome {key : Nat → Option Nat} {l : List Nat}
    (h : ∀ x ∈ l, (key x).isSome) : (keyed key l).isSome := by
  induction l with
  | nil => rfl
  | cons a as ih =>
    obtain ⟨k, hk⟩ := Option.isSome_iff_exists.mp (h a (List.mem_cons_self _ _))
    obtain ⟨kl, hkl⟩ := Option.isSome_iff_exists.mp
      (ih (fun x hx => h x (List.mem_cons_of_mem _ hx)))
    simp [keyed, hk, hkl]

theorem keyed_fst {key : Nat → Option Nat} {l : List Nat} {kl : List (Nat × Nat)}
    (h : keyed key l = some kl) : kl.map Prod.fst = l := by
  induction l generalizing kl with
  | nil =>
    unfold keyed at h
    injection h with h
    subst h
    rfl
  | cons a as ih =>
    unfold keyed at h
    simp only [Option.pure_def, Option.bind_eq_bind, obind_eq_some, Option.some.injEq] at h
    obtain ⟨k, hk, rest, hrest, he⟩ := h
    subst he
    simp [ih hrest]

theorem insertDesc_perm (p : Nat × Nat) (l : List (Nat × Nat)) :
    (insertDesc p l).Perm (p :: l) := by
  induction l with
  | nil => exact List.Perm.refl _
  | cons q qs ih =>
    unfold insertDesc
    by_cases h : q.2 < p.2
    · rw [if_pos h]
    · rw [if_neg h]
      exact (ih.cons q).trans (List.Perm.swap p q qs)

theorem sortDesc_perm (l : List (Nat × Nat)) : (sortDesc l).Perm l := by
  induction l with
  | nil => exact List.Perm.refl _
  | cons p ps ih =>
    exact (insertDesc_perm p (sortDesc ps)).trans (ih.cons p)

theorem nlargest_spec {n : Nat} {l : List Nat} {key : Nat → Option Nat}
    {r : List Nat} (h : nlargest n l key = some r) :
    (∀ x ∈ r, x ∈ l) ∧ r.length ≤ n ∧ (l.Nodup → r.Nodup) := by
  unfold nlargest at h
  cases hk : keyed key l with
  | none => rw [hk] at h; exact absurd h (by simp)
  | some kl =>
    rw [hk] at h
    injection h with h
    subst h
    have hperm : ((sortDesc kl).map Prod.fst).Perm l := by
      rw [← keyed_fst hk]
      exact (sortDesc_perm kl).map _
    have hsub : List.Sublist (((sortDesc kl).take n).map Prod.fst)
        ((sortDesc kl).map Prod.fst) :=
      (List.take_sublist _ _).map _
    refine ⟨?_, ?_, ?_⟩
    · intro x hx
      exact hperm.mem_iff.mp (hsub.subset hx)
    · rw [List.length_map, List.length_take]
      exact min_le_left _ _
    · intro hnd
      exact List.Nodup.sublist hsub (hperm.nodup_iff.mpr hnd)

theorem nlargest_isSome (n : Nat) {l : List Nat} {key : Nat → Option Nat}
    (h : ∀ x ∈ l, (key x).isSome) : (nlargest n l key).isSome := by
  unfold nlargest
  obtain ⟨kl, hkl⟩ := Option.isSome_iff_exists.mp (keyed_isSome h)
  rw [hkl]
  rfl

/-! ## Lemmas about the proposal phase -/

theorem propose1_spec {students : List Student} {schools : List School}
    {apps apps' : List (Nat × List Nat)} {sid : Nat}
    (h : propose1 students schools apps sid = some apps') :
    ∃ s hId, findStudent? students sid = some s ∧
      s.preferences[s.best_unrejected]? = some hId ∧
      (∃ sch, findSchool? schools hId = some sch) ∧
      apps' = bucketAppend apps hId sid := by
  unfold propose1 at h
  simp only [Option.pure_def, Option.bind_eq_bind, obind_eq_some, Option.some.injEq] at h
  obtain ⟨s, hs, hId, hget, sch, hsch, he⟩ := h
  exact ⟨s, hId, hs, hget, ⟨sch, hsch⟩, he.symm⟩

theorem proposeAll_spec {students : List Student} {schools : List School}
    {apps apps' : List (Nat × List Nat)} {l : List Nat}
    (hG : GoodApps students apps)
    (hK : apps.map Prod.fst = schools.map (fun h => h.id))
    (hF : ∀ i ∈ l, i ∉ flatB apps) (hln : l.Nodup)
    (h : proposeAll students schools apps l = some apps') :
    GoodApps students apps' ∧ apps'.map Prod.fst = apps.map Prod.fst ∧
    (∀ x, x ∈ flatB apps' ↔ x ∈ flatB apps ∨ x ∈ l) ∧
    (∀ i ∈ l, ∃ s ∈ students, s.id = i ∧
      s.best_unrejected < s.preferences.length) := by
  induction l generalizing apps with
  | nil =>
    unfold proposeAll at h
    injection h with h
    subst h
    exact ⟨hG, rfl, fun x => by simp, by simp⟩
  | cons sid rest ih =>
    unfold proposeAll at h
    simp only [Option.pure_def, Option.bind_eq_bind, obind_eq_some, Option.some.injEq] at h
    obtain ⟨apps1, h1, h2⟩ := h
    obtain ⟨s, hId, hfs, hget, ⟨sch, hsch⟩, happ1⟩ := propose1_spec h1
    subst happ1
    obtain ⟨hsm, hsid⟩ := findStudent?_mem hfs
    have hcur : s.best_unrejected < s.preferences.length := by
      rcases List.getElem?_eq_some.mp hget with ⟨hlt, _⟩
      exact hlt
    have hkey : hId ∈ apps.map Prod.fst := by
      rw [hK]
      obtain ⟨hm, hid⟩ := findSchool?_mem hsch
      exact hid ▸ List.mem_map_of_mem _ hm
    have hsidF : sid ∉ flatB apps := hF sid (List.mem_cons_self _ _)
    have hGa : GoodApps students (bucketAppend apps hId sid) := by
      intro kb hkb
      obtain ⟨b, hb, hor⟩ := mem_bucketAppend hkb
      have hGb := hG (kb.1, b) hb
      rcases hor with he | ⟨hkId, he⟩
      · rw [he]
        exact hGb
      · rw [he]
        refine ⟨?_, ?_⟩
        · rw [List.nodup_append]
          refine ⟨hGb.1, List.nodup_singleton _, ?_⟩
          intro y hy hy2
          have : y = sid := by simpa using hy2
          subst this
          exact hsidF (mem_flatB.mpr ⟨(kb.1, b), hb, hy⟩)
        · intro i hi
          rcases List.mem_append.mp hi with hib | his
          · exact hGb.2 i hib
          · have : i = sid := by simpa using his
            subst this
            refine ⟨s, hsm, hsid, hcur, ?_⟩
            rw [hkId]
            exact hget
    have hKa : (bucketAppend apps hId sid).map Prod.fst = apps.map Prod.fst :=
      bucketAppend_keys apps hId sid
    have hFa : ∀ i ∈ rest, i ∉ flatB (bucketAppend apps hId sid) := by
      intro i hir hmem
      rcases flatB_bucketAppend_sub hmem with hold | he
      · exact hF i (List.mem_cons_of_mem _ hir) hold
      · exact (List.nodup_cons.mp hln).1 (he ▸ hir)
    have hiff1 : ∀ x, x ∈ flatB (bucketAppend apps hId sid) ↔
        x ∈ flatB apps ∨ x = sid := by
      intro x
      constructor
      · exact flatB_bucketAppend_sub
      · rintro (hold | rfl)
        · exact flatB_bucketAppend_super hold
        · exact self_mem_flatB_bucketAppend hkey
    obtain ⟨g1, g2, g3, g4⟩ := ih hGa (by rw [hKa, hK]) hFa (List.nodup_cons.mp hln).2 h2
    refine ⟨g1, by rw [g2, hKa], ?_, ?_⟩
    · intro x
      rw [g3 x, hiff1 x, List.mem_cons]
      tauto
    · intro i hi
      rcases List.mem_cons.mp hi with rfl | hir
      · exact ⟨s, hsm, hsid, hcur⟩
      · exact g4 i hir

theorem proposeAll_isSome {students : List Student} {schools : List School}
    {l : List Nat}
    (h : ∀ i ∈ l, ∃ s, findStudent? students i = some s ∧
      ∃ hId, s.preferences[s.best_unrejected]? = some hId ∧
        ∃ sch, findSchool? schools hId = some sch) :
    ∀ apps, (proposeAll students schools apps l).isSome := by
  induction l with
  | nil => intro apps; rfl
  | cons sid rest ih =>
    intro apps
    obtain ⟨s, hs, hId, hget, sch, hsch⟩ := h sid (List.mem_cons_self _ _)
    have h1 : propose1 students schools apps sid =
        some (bucketAppend apps hId sid) := by
      simp [propose1, hs, hget, hsch]
    unfold proposeAll
    rw [h1]
    exact ih (fun i hi => h i (List.mem_cons_of_mem _ hi)) _

/-! ## Lemmas about the selection and rejection phase -/

theorem computeHeld_spec {schools : List School} {apps nh : List (Nat × List Nat)}
    (h : computeHeld schools apps = some nh) :
    nh.map Prod.fst = apps.map Prod.fst ∧
    ∀ kn ∈ nh, ∃ b sch, (kn.1, b) ∈ apps ∧ findSchool? schools kn.1 = some sch ∧
      (∀ x ∈ kn.2, x ∈ b) ∧ (b.Nodup → kn.2.Nodup) ∧
      kn.2.length ≤ sch.capacity := by
  induction apps generalizing nh with
  | nil =>
    unfold computeHeld at h
    injection h with h
    subst h
    exact ⟨rfl, by simp⟩
  | cons kb rest ih =>
    obtain ⟨k, bucket⟩ := kb
    unfold computeHeld at h
    simp only [Option.pure_def, Option.bind_eq_bind, obind_eq_some, Option.some.injEq] at h
    obtain ⟨sch, hsch, nhead, hnl, others, hoth, he⟩ := h
    subst he
    obtain ⟨ihfst, ihmem⟩ := ih hoth
    refine ⟨by simp [ihfst], ?_⟩
    intro kn hkn
    rcases List.mem_cons.mp hkn with rfl | hr
    · obtain ⟨hsub', hlen', hnd'⟩ := nlargest_spec hnl
      exact ⟨bucket, sch, List.mem_cons_self _ _, hsch, hsub', hnd', hlen'⟩
    · obtain ⟨b, sch', hb, hsch', hx1, hx2, hx3⟩ := ihmem kn hr
      exact ⟨b, sch', List.mem_cons_of_mem _ hb, hsch', hx1, hx2, hx3⟩

theorem computeHeld_isSome {schools : List School} {apps : List (Nat × List Nat)}
    (h : ∀ kb ∈ apps, ∃ sch, findSchool? schools kb.1 = some sch ∧
      ∀ x ∈ kb.2, (pyIndex sch.preferences x).isSome) :
    (computeHeld schools apps).isSome := by
  induction apps with
  | nil => rfl
  | cons kb rest ih =>
    obtain ⟨k, bucket⟩ := kb
    obtain ⟨sch, hsch, hkeys⟩ := h (k, bucket) (List.mem_cons_self _ _)
    obtain ⟨nh, hnh⟩ := Option.isSome_iff_exists.mp (nlargest_isSome sch.capacity hkeys)
    obtain ⟨others, hoth⟩ := Option.isSome_iff_exists.mp
      (ih (fun kb hkb => h kb (List.mem_cons_of_mem _ hkb)))
    simp [computeHeld, hsch, hnh, hoth]

theorem setHelds_spec {newHeld : List (Nat × List Nat)} {schools schs' : List School}
    (h : setHelds newHeld schools = some schs') :
    List.Forall₂ (fun a b => b.id = a.id ∧ b.preferences = a.preferences ∧
      b.capacity = a.capacity ∧ alookup newHeld a.id = some b.held) schools schs' := by
  induction schools generalizing schs' with
  | nil =>
    unfold setHelds at h
    injection h with h
    subst h
    exact List.Forall₂.nil
  | cons sch rest ih =>
    unfold setHelds at h
    simp only [Option.pure_def, Option.bind_eq_bind, obind_eq_some, Option.some.injEq] at h
    obtain ⟨nh, hnh, rest', hrest, he⟩ := h
    subst he
    exact List.Forall₂.cons ⟨rfl, rfl, rfl, hnh⟩ (ih hrest)

theorem setHelds_isSome {newHeld : List (Nat × List Nat)} {schools : List School}
    (h : ∀ sch ∈ schools, (alookup newHeld sch.id).isSome) :
    (setHelds newHeld schools).isSome := by
  induction schools with
  | nil => rfl
  | cons sch rest ih =>
    obtain ⟨nh, hnh⟩ := Option.isSome_iff_exists.mp (h sch (List.mem_cons_self _ _))
    obtain ⟨rest', hrest⟩ := Option.isSome_iff_exists.mp
      (ih (fun a ha => h a (List.mem_cons_of_mem _ ha)))
    simp [setHelds, hnh, hrest]

theorem forall2_mem_right {α β : Type} {R : α → β → Prop} {l : List α}
    {l' : List β} (h : List.Forall₂ R l l') {b : β} (hb : b ∈ l') :
    ∃ a ∈ l, R a b := by
  induction h with
  | nil => simp at hb
  | @cons a b' l l' hR hrest ih =>
    rcases List.mem_cons.mp hb with rfl | hb'
    · exact ⟨a, List.mem_cons_self _ _, hR⟩
    · obtain ⟨a', ha', hr⟩ := ih hb'
      exact ⟨a', List.mem_cons_of_mem _ ha', hr⟩

theorem forall2_mem_left {α β : Type} {R : α → β → Prop} {l : List α}
    {l' : List β} (h : List.Forall₂ R l l') {a : α} (ha : a ∈ l) :
    ∃ b ∈ l', R a b := by
  induction h with
  | nil => simp at ha
  | @cons a' b' l l' hR hrest ih =>
    rcases List.mem_cons.mp ha with rfl | ha'
    · exact ⟨b', List.mem_cons_self _ _, hR⟩
    · obtain ⟨b, hb, hr⟩ := ih ha'
      exact ⟨b, List.mem_cons_of_mem _ hb, hr⟩

theorem setHelds_ids {newHeld : List (Nat × List Nat)} {schools schs' : List School}
    (h : setHelds newHeld schools = some schs') :
    schs'.map (fun h => h.id) = schools.map (fun h => h.id) := by
  induction schools generalizing schs' with
  | nil =>
    unfold setHelds at h
    injection h with h
    subst h
    rfl
  | cons sch rest ih =>
    unfold setHelds at h
    simp only [Option.pure_def, Option.bind_eq_bind, obind_eq_some, Option.some.injEq] at h
    obtain ⟨nh, hnh, rest', hrest, he⟩ := h
    subst he
    simp [ih hrest]

theorem computeRejections_mem {schools : List School}
    {apps newHeld : List (Nat × List Nat)} {r : List Nat}
    (h : computeRejections schools apps newHeld = some r) :
    ∀ x, x ∈ r ↔ ∃ sch ∈ schools, ∃ b nh, alookup apps sch.id = some b ∧
      alookup newHeld sch.id = some nh ∧ x ∈ b ∧ x ∉ nh := by
  induction schools generalizing r with
  | nil =>
    unfold computeRejections at h
    injection h with h
    subst h
    simp
  | cons sch rest ih =>
    unfold computeRejections at h
    simp only [Option.pure_def, Option.bind_eq_bind, obind_eq_some, Option.some.injEq] at h
    obtain ⟨b, hb, nh, hnh, others, hoth, he⟩ := h
    subst he
    intro x
    rw [List.mem_append]
    constructor
    · rintro (h1 | h2)
      · have hmf := List.mem_filter.mp h1
        refine ⟨sch, List.mem_cons_self _ _, b, nh, hb, hnh, hmf.1, ?_⟩
        simpa using hmf.2
      · obtain ⟨sch', hm, rest'⟩ := (ih hoth x).mp h2
        exact ⟨sch', List.mem_cons_of_mem _ hm, rest'⟩
    · rintro ⟨sch', hm, b', nh', hb', hnh', hxb, hxnh⟩
      rcases List.mem_cons.mp hm with rfl | hm'
      · left
        rw [hb] at hb'
        injection hb' with hb'
        subst hb'
        rw [hnh] at hnh'
        injection hnh' with hnh'
        subst hnh'
        exact List.mem_filter.mpr ⟨hxb, by simpa using hxnh⟩
      · exact Or.inr ((ih hoth x).mpr ⟨sch', hm', b', nh', hb', hnh', hxb, hxnh⟩)

theorem computeRejections_isSome {schools : List School}
    {apps newHeld : List (Nat × List Nat)}
    (h : ∀ sch ∈ schools, (alookup apps sch.id).isSome ∧
      (alookup newHeld sch.id).isSome) :
    (computeRejections schools apps newHeld).isSome := by
  induction schools with
  | nil => rfl
  | cons sch rest ih =>
    obtain ⟨b, hb⟩ := Option.isSome_iff_exists.mp (h sch (List.mem_cons_self _ _)).1
    obtain ⟨nh, hnh⟩ := Option.isSome_iff_exists.mp (h sch (List.mem_cons_self _ _)).2
    obtain ⟨others, hoth⟩ := Option.isSome_iff_exists.mp
      (ih (fun a ha => h a (List.mem_cons_of_mem _ ha)))
    simp [computeRejections, hb, hnh, hoth]

theorem lookupAll_isSome {students : List Student} {l : List Nat}
    (h : ∀ i ∈ l, ∃ s ∈ students, s.id = i) : (lookupAll students l).isSome := by
  induction l with
  | nil => rfl
  | cons i rest ih =>
    obtain ⟨s, hs⟩ := Option.isSome_iff_exists.mp
      (findStudent?_isSome (h i (List.mem_cons_self _ _)))
    obtain ⟨rest', hrest⟩ := Option.isSome_iff_exists.mp
      (ih (fun j hj => h j (List.mem_cons_of_mem _ hj)))
    simp [lookupAll, hs, hrest]

/-! ## The postcondition of a successful round -/

theorem goodApps_cross {students : List Student} {apps : List (Nat × List Nat)}
    (hG : GoodApps students apps)
    (hsn : (students.map (fun s => s.id)).Nodup)
    {k1 k2 : Nat} {b1 b2 : List Nat} (h1 : (k1, b1) ∈ apps) (h2 : (k2, b2) ∈ apps)
    {i : Nat} (hi1 : i ∈ b1) (hi2 : i ∈ b2) : k1 = k2 := by
  obtain ⟨s1, hm1, hid1, _, hg1⟩ := (hG (k1, b1) h1).2 i hi1
  obtain ⟨s2, hm2, hid2, _, hg2⟩ := (hG (k2, b2) h2).2 i hi2
  have he : s1 = s2 := eq_of_mem_id hsn hm1 hm2 (by rw [hid1, hid2])
  subst he
  rw [hg1] at hg2
  exact Option.some.inj hg2

theorem run_round_inr {students : List Student} {schools : List School}
    {ta : List Nat} {schs' : List School} {rej : List Nat}
    (h : run_round students schools ta = some (Sum.inr (schs', rej))) :
    ∃ apps newHeld rejRaw,
      proposeAll students schools (schools.map (fun h => (h.id, h.held))) ta =
        some apps ∧
      computeHeld schools apps = some newHeld ∧
      setHelds newHeld schools = some schs' ∧
      computeRejections schools apps newHeld = some rejRaw ∧
      (lookupAll students rejRaw.dedup).isSome ∧
      rej = rejRaw.dedup := by
  unfold run_round at h
  by_cases hta : ta.isEmpty
  · rw [if_pos hta] at h
    injection h with h
    simp at h
  · rw [if_neg hta] at h
    simp only [Option.pure_def, Option.bind_eq_bind, obind_eq_some,
      Option.some.injEq, Sum.inr.injEq, Prod.mk.injEq] at h
    obtain ⟨apps, h1, nh, h2, schs2, h3, rr, h4, sts, h5, he1, he2⟩ := h
    subst he1
    subst he2
    exact ⟨apps, nh, rr, h1, h2, h3, h4, Option.isSome_iff_exists.mpr ⟨sts, h5⟩, rfl⟩

theorem run_round_post {st : DAState} (inv : DAInv st)
    {schs' : List School} {rej : List Nat}
    (h : run_round st.students st.schools st.to_apply = some (Sum.inr (schs', rej))) :
    RoundPost st schs' rej := by
  obtain ⟨apps, newHeld, rejRaw, hPA, hCH, hSH, hCR, hLA, hrejE⟩ := run_round_inr h
  subst hrejE
  have hG0 : GoodApps st.students (st.schools.map (fun h => (h.id, h.held))) := by
    intro kb hkb
    obtain ⟨sch, hsch, he⟩ := List.mem_map.mp hkb
    subst he
    exact ⟨inv.heldNodup sch hsch, fun i hi => inv.heldStud sch hsch i hi⟩
  have hK0 : (st.schools.map (fun h => (h.id, h.held))).map Prod.fst =
      st.schools.map (fun h => h.id) := by simp
  have hF0 : ∀ i ∈ st.to_apply,
      i ∉ flatB (st.schools.map (fun h => (h.id, h.held))) := by
    intro i hi hmem
    obtain ⟨sch, hsch, hin⟩ := flatB_of_schools.mp hmem
    exact inv.heldTa sch hsch i hin hi
  obtain ⟨hGA, hKA, hFlat, hTAc⟩ := proposeAll_spec hG0 hK0 hF0 inv.taNodup hPA
  obtain ⟨hCHk, hCHmem⟩ := computeHeld_spec hCH
  have hSF := setHelds_spec hSH
  have hids := setHelds_ids hSH
  have hCRm := computeRejections_mem hCR
  have hKapps : apps.map Prod.fst = st.schools.map (fun h => h.id) := by
    rw [hKA, hK0]
  have hKnh : newHeld.map Prod.fst = st.schools.map (fun h => h.id) := by
    rw [hCHk, hKapps]
  have hNodupApps : (apps.map Prod.fst).Nodup := by
    rw [hKapps]; exact inv.hNodup
  have hNodupNh : (newHeld.map Prod.fst).Nodup := by
    rw [hKnh]; exact inv.hNodup
  -- old membership characterised through the buckets
  have hOldIff : ∀ i, i ∈ flatB apps ↔
      (i ∈ st.to_apply ∨ ∃ hh ∈ st.schools, i ∈ hh.held) := by
    intro i
    rw [hFlat i, flatB_of_schools]
    exact or_comm
  -- the key facts about each school object after the round
  have key' : ∀ b ∈ schs', ∃ a bucket, a ∈ st.schools ∧ b.id = a.id ∧
      b.preferences = a.preferences ∧ b.capacity = a.capacity ∧
      (a.id, bucket) ∈ apps ∧ (∀ x ∈ b.held, x ∈ bucket) ∧ b.held.Nodup ∧
      b.held.length ≤ b.capacity ∧ alookup newHeld a.id = some b.held := by
    intro b hb
    obtain ⟨a, ha, hid, hpref, hcap, hal⟩ := forall2_mem_right hSF hb
    obtain ⟨bucket, sch, hbap, hfs, hsub, hnd, hlen⟩ :=
      hCHmem (a.id, b.held) (alookup_mem hal)
    rw [findSchool?_eq_self inv.hNodup ha] at hfs
    injection hfs with hfs
    have hGb := hGA (a.id, bucket) hbap
    refine ⟨a, bucket, ha, hid, hpref, hcap, hbap, hsub, hnd hGb.1, ?_, hal⟩
    rw [hcap, hfs]
    exact hlen
  refine ⟨hids, ?_, ?_, ?_, ?_, ?_, ?_, ?_, ?_, ?_, ?_, ?_⟩
  · exact List.Forall₂.imp (fun a b hR => ⟨hR.1, hR.2.1, hR.2.2.1⟩) hSF
  · intro b hb
    obtain ⟨a, bucket, _, _, _, _, _, _, hnd, _, _⟩ := key' b hb
    exact hnd
  · intro b hb
    obtain ⟨a, bucket, _, _, _, _, _, _, _, hcap, _⟩ := key' b hb
    exact hcap
  · intro b hb i hi
    obtain ⟨a, bucket, ha, hid, _, _, hbap, hsub, _, _, _⟩ := key' b hb
    obtain ⟨s, hm, hsid, hcur, hg⟩ := (hGA (a.id, bucket) hbap).2 i (hsub i hi)
    refine ⟨s, hm, hsid, hcur, ?_⟩
    rw [hid]
    exact hg
  · exact List.nodup_dedup _
  · intro i hi
    obtain ⟨sch, hsch, b, nhb, hab, hanh, hib, hinh⟩ :=
      (hCRm i).mp (List.mem_dedup.mp hi)
    obtain ⟨s, hm, hsid, hcur, _⟩ := (hGA (sch.id, b) (alookup_mem hab)).2 i hib
    exact ⟨s, hm, hsid, hcur⟩
  · intro b hb i hi hir
    obtain ⟨a, bucket, ha, hid, _, _, hbap, hsub, _, _, hal⟩ := key' b hb
    obtain ⟨sch, hsch, b2, nhb2, hab2, hanh2, hib2, hinh2⟩ :=
      (hCRm i).mp (List.mem_dedup.mp hir)
    by_cases hk : sch.id = a.id
    · rw [hk, hal] at hanh2
      injection hanh2 with hanh2
      subst hanh2
      exact hinh2 hi
    · have := goodApps_cross hGA inv.sNodup (alookup_mem hab2) hbap hib2 (hsub i hi)
      exact hk this
  · intro i hiold
    have hiapps : i ∈ flatB apps := (hOldIff i).mpr hiold
    obtain ⟨kb, hkb, hikb⟩ := mem_flatB.mp hiapps
    have hkey : kb.1 ∈ st.schools.map (fun h => h.id) := by
      rw [← hKapps]
      exact List.mem_map_of_mem _ hkb
    obtain ⟨a, ha, haid⟩ := List.mem_map.mp hkey
    have hab : alookup apps kb.1 = some kb.2 :=
      alookup_eq_of_mem hNodupApps (by simpa using hkb)
    have hknh : kb.1 ∈ newHeld.map Prod.fst := by rw [hKnh]; exact hkey
    obtain ⟨nhb, hanh⟩ := Option.isSome_iff_exists.mp (alookup_isSome hknh)
    by_cases hin : i ∈ nhb
    · left
      obtain ⟨b, hbm, hR⟩ := forall2_mem_left hSF ha
      refine ⟨b, hbm, ?_⟩
      rw [haid] at hR
      rw [hR.2.2.2] at hanh
      injection hanh with hanh
      rw [hanh]
      exact hin
    · right
      refine List.mem_dedup.mpr ((hCRm i).mpr ⟨a, ha, kb.2, nhb, ?_, ?_, hikb, hin⟩)
      · rw [haid]; exact hab
      · rw [haid]; exact hanh
  · intro i hi
    obtain ⟨sch, hsch, b, nhb, hab, hanh, hib, hinh⟩ :=
      (hCRm i).mp (List.mem_dedup.mp hi)
    exact (hOldIff i).mp (mem_flatB.mpr ⟨(sch.id, b), alookup_mem hab, hib⟩)
  · intro b hb i hi
    obtain ⟨a, bucket, ha, _, _, _, hbap, hsub, _, _, _⟩ := key' b hb
    exact (hOldIff i).mp (mem_flatB.mpr ⟨(a.id, bucket), hbap, hsub i hi⟩)
  · intro i hi s hm hsid
    obtain ⟨s0, hm0, hsid0, hcur0⟩ := hTAc i hi
    have : s = s0 := eq_of_mem_id inv.sNodup hm hm0 (by rw [hsid, hsid0])
    rw [this]
    exact hcur0

theorem run_round_isSome {st : DAState} (inv : DAInv st) (tac : TAC st)
    (hst : Statics st) (hta : st.to_apply ≠ []) :
    ∃ schs' rej, run_round st.students st.schools st.to_apply =
      some (Sum.inr (schs', rej)) := by
  have hG0 : GoodApps st.students (st.schools.map (fun h => (h.id, h.held))) := by
    intro kb hkb
    obtain ⟨sch, hsch, he⟩ := List.mem_map.mp hkb
    subst he
    exact ⟨inv.heldNodup sch hsch, fun i hi => inv.heldStud sch hsch i hi⟩
  have hK0 : (st.schools.map (fun h => (h.id, h.held))).map Prod.fst =
      st.schools.map (fun h => h.id) := by simp
  have hF0 : ∀ i ∈ st.to_apply,
      i ∉ flatB (st.schools.map (fun h => (h.id, h.held))) := by
    intro i hi hmem
    obtain ⟨sch, hsch, hin⟩ := flatB_of_schools.mp hmem
    exact inv.heldTa sch hsch i hin hi
  -- step 1: proposals succeed
  have hPAs : (proposeAll st.students st.schools
      (st.schools.map (fun h => (h.id, h.held))) st.to_apply).isSome := by
    apply proposeAll_isSome
    intro i hi
    obtain ⟨s0, hs0, hsid0⟩ := inv.taSub i hi
    have hfs := findStudent?_eq_self inv.sNodup hs0
    rw [hsid0] at hfs
    refine ⟨s0, hfs, ?_⟩
    have hcur : s0.best_unrejected < s0.preferences.length := tac i hi s0 hs0 hsid0
    have hget := List.getElem?_eq_getElem hcur
    refine ⟨s0.preferences[s0.best_unrejected], hget, ?_⟩
    have hmem := List.getElem?_mem hget
    obtain ⟨hsch, hschm, hschid⟩ := hst.1 s0 hs0 _ hmem
    exact ⟨hsch, by rw [← hschid]; exact findSchool?_eq_self inv.hNodup hschm⟩
  obtain ⟨apps, hPA⟩ := Option.isSome_iff_exists.mp hPAs
  obtain ⟨hGA, hKA, hFlat, hTAc⟩ := proposeAll_spec hG0 hK0 hF0 inv.taNodup hPA
  have hKapps : apps.map Prod.fst = st.schools.map (fun h => h.id) := by
    rw [hKA, hK0]
  -- step 2: the selection succeeds
  have hCHs : (computeHeld st.schools apps).isSome := by
    apply computeHeld_isSome
    intro kb hkb
    have hkey : kb.1 ∈ st.schools.map (fun h => h.id) := by
      rw [← hKapps]
      exact List.mem_map_of_mem _ hkb
    obtain ⟨a, ha, haid⟩ := List.mem_map.mp hkey
    refine ⟨a, by rw [← haid]; exact findSchool?_eq_self inv.hNodup ha, ?_⟩
    intro x hx
    obtain ⟨s, hm, hsid, hcur, hg⟩ := (hGA kb hkb).2 x hx
    have hmem : kb.1 ∈ s.preferences := List.getElem?_mem hg
    have := hst.2 s hm kb.1 hmem a ha haid
    rw [pyIndex_isSome_iff]
    rw [← hsid]
    exact this
  obtain ⟨newHeld, hCH⟩ := Option.isSome_iff_exists.mp hCHs
  obtain ⟨hCHk, hCHmem⟩ := computeHeld_spec hCH
  have hKnh : newHeld.map Prod.fst = st.schools.map (fun h => h.id) := by
    rw [hCHk, hKapps]
  -- step 3: writing back the held sets succeeds
  have hSHs : (setHelds newHeld st.schools).isSome := by
    apply setHelds_isSome
    intro sch hsch
    exact alookup_isSome (by rw [hKnh]; exact List.mem_map_of_mem _ hsch)
  obtain ⟨schs', hSH⟩ := Option.isSome_iff_exists.mp hSHs
  -- step 4: the rejection accumulation succeeds
  have hCRs : (computeRejections st.schools apps newHeld).isSome := by
    apply computeRejections_isSome
    intro sch hsch
    constructor
    · exact alookup_isSome (by rw [hKapps]; exact List.mem_map_of_mem _ hsch)
    · exact alookup_isSome (by rw [hKnh]; exact List.mem_map_of_mem _ hsch)
  obtain ⟨rejRaw, hCR⟩ := Option.isSome_iff_exists.mp hCRs
  have hCRm := computeRejections_mem hCR
  -- step 5: looking up the rejected students succeeds
  have hLAs : (lookupAll st.students rejRaw.dedup).isSome := by
    apply lookupAll_isSome
    intro i hi
    obtain ⟨sch, hsch, b, nhb, hab, hanh, hib, hinh⟩ :=
      (hCRm i).mp (List.mem_dedup.mp hi)
    obtain ⟨s, hm, hsid, _, _⟩ := (hGA (sch.id, b) (alookup_mem hab)).2 i hib
    exact ⟨s, hm, hsid⟩
  obtain ⟨stsX, hLA⟩ := Option.isSome_iff_exists.mp hLAs
  refine ⟨schs', rejRaw.dedup, ?_⟩
  have htaE : st.to_apply.isEmpty = false := by
    cases hta2 : st.to_apply with
    | nil => exact absurd hta2 hta
    | cons a l => rfl
  simp [run_round, htaE, hPA, hCH, hSH, hCR, hLA]

/-! ## Preservation of the invariant by one orchestrator step -/

/-- The per-student effect of the cursor advancement. -/
def bumpIf (rej : List Nat) (s : Student) : Student :=
  if s.id ∈ rej then { s with best_unrejected := s.best_unrejected + 1 } else s

theorem advanceCursors_eq_map (sts : List Student) (rej : List Nat) :
    advanceCursors sts rej = sts.map (bumpIf rej) := rfl

theorem bumpIf_id (rej : List Nat) (s : Student) : (bumpIf rej s).id = s.id := by
  unfold bumpIf
  by_cases h : s.id ∈ rej <;> simp [h]

theorem bumpIf_prefs (rej : List Nat) (s : Student) :
    (bumpIf rej s).preferences = s.preferences := by
  unfold bumpIf
  by_cases h : s.id ∈ rej <;> simp [h]

theorem bumpIf_not_mem {rej : List Nat} {s : Student} (h : s.id ∉ rej) :
    bumpIf rej s = s := by
  unfold bumpIf
  rw [if_neg h]

theorem bumpIf_mem {rej : List Nat} {s : Student} (h : s.id ∈ rej) :
    bumpIf rej s = { s with best_unrejected := s.best_unrejected + 1 } := by
  unfold bumpIf
  rw [if_pos h]

theorem forall2_self {α : Type} {R : α → α → Prop} {l : List α}
    (h : ∀ a ∈ l, R a a) : List.Forall₂ R l l := by
  induction l with
  | nil => exact List.Forall₂.nil
  | cons a rest ih =>
    exact List.Forall₂.cons (h a (List.mem_cons_self _ _))
      (ih (fun x hx => h x (List.mem_cons_of_mem _ hx)))

theorem forall2_map_self {α : Type} {R : α → α → Prop} (g : α → α) {l : List α}
    (h : ∀ a ∈ l, R a (g a)) : List.Forall₂ R l (l.map g) := by
  induction l with
  | nil => exact List.Forall₂.nil
  | cons a rest ih =>
    exact List.Forall₂.cons (h a (List.mem_cons_self _ _))
      (ih (fun x hx => h x (List.mem_cons_of_mem _ hx)))

theorem advanceCursors_map_prefs (sts : List Student) (rej : List Nat) :
    (advanceCursors sts rej).map (fun s => s.preferences) =
      sts.map (fun s => s.preferences) := by
  rw [advanceCursors_eq_map, List.map_map]
  apply List.map_congr_left
  intro s _
  exact bumpIf_prefs rej s

theorem advance_mem {sts : List Student} {rej : List Nat} {t : Student}
    (h : t ∈ advanceCursors sts rej) : ∃ s ∈ sts, t = bumpIf rej s := by
  rw [advanceCursors_eq_map] at h
  obtain ⟨s, hs, he⟩ := List.mem_map.mp h
  exact ⟨s, hs, he.symm⟩

theorem advance_mem_of {sts : List Student} (rej : List Nat) {s : Student}
    (hs : s ∈ sts) : bumpIf rej s ∈ advanceCursors sts rej := by
  rw [advanceCursors_eq_map]
  exact List.mem_map_of_mem _ hs

theorem advance_exists_id {sts : List Student} {rej : List Nat} {i : Nat}
    (h : ∃ s ∈ sts, s.id = i) : ∃ s' ∈ advanceCursors sts rej, s'.id = i := by
  obtain ⟨s, hs, hid⟩ := h
  exact ⟨bumpIf rej s, advance_mem_of rej hs, by rw [bumpIf_id]; exact hid⟩

theorem totalPrefLen_map {sts sts' : List Student}
    (h : sts'.map (fun s => s.preferences) = sts.map (fun s => s.preferences)) :
    totalPrefLen sts' = totalPrefLen sts := by
  have h1 : totalPrefLen sts' =
      ((sts'.map (fun s => s.preferences)).map List.length).sum := by
    rw [List.map_map]; rfl
  have h2 : totalPrefLen sts =
      ((sts.map (fun s => s.preferences)).map List.length).sum := by
    rw [List.map_map]; rfl
  rw [h1, h2, h]

theorem isExhausted_iff {sts : List Student} {i : Nat} {s : Student}
    (hf : findStudent? sts i = some s) :
    isExhausted sts i = true ↔ s.preferences.length ≤ s.best_unrejected := by
  unfold isExhausted
  rw [hf]
  simp

theorem daStep_inr {st st' : DAState} (hta : ¬ st.to_apply.isEmpty = true)
    (h : daStep st = some st') :
    ∃ schs' rej, run_round st.students st.schools st.to_apply =
        some (Sum.inr (schs', rej)) ∧
      st'.students = advanceCursors st.students rej ∧
      st'.schools = schs' ∧
      st'.unassigned = pyUnion st.unassigned
        (rej.filter (fun i => isExhausted (advanceCursors st.students rej) i)) ∧
      st'.to_apply = rej.filter (fun i => i ∉ pyUnion st.unassigned
        (rej.filter (fun j => isExhausted (advanceCursors st.students rej) j))) := by
  unfold daStep at h
  rw [if_neg hta] at h
  cases hrr : run_round st.students st.schools st.to_apply with
  | none => rw [hrr] at h; exact absurd h (by simp)
  | some v =>
    rw [hrr] at h
    cases v with
    | inl b => exact absurd h (by simp)
    | inr p =>
      obtain ⟨schs', rej⟩ := p
      simp only [Option.some.injEq] at h
      exact ⟨schs', rej, rfl, by rw [← h], by rw [← h], by rw [← h], by rw [← h]⟩

theorem daStep_spec {st st' : DAState} (inv : DAInv st) (h : daStep st = some st') :
    DAInv st' ∧ (TAC st → TAC st') ∧ (¬ st.to_apply.isEmpty = true → TAC st') ∧
    st'.students.map (fun s => s.id) = st.students.map (fun s => s.id) ∧
    st'.students.map (fun s => s.preferences) =
      st.students.map (fun s => s.preferences) ∧
    st'.schools.map (fun hh => hh.id) = st.schools.map (fun hh => hh.id) ∧
    (¬ st.to_apply.isEmpty = true →
      (st'.to_apply = [] ∨ sumCur st.students < sumCur st'.students)) ∧
    List.Forall₂ (fun s s' => s'.id = s.id ∧
      s.best_unrejected ≤ s'.best_unrejected ∧
      s'.best_unrejected ≤ s'.preferences.length) st.students st'.students := by
  by_cases hta : st.to_apply.isEmpty
  · unfold daStep at h
    rw [if_pos hta] at h
    injection h with h
    subst h
    refine ⟨inv, fun t => t, fun hne => absurd hta hne, rfl, rfl, rfl,
      fun hne => absurd hta hne, ?_⟩
    exact forall2_self (fun s hs => ⟨rfl, le_refl _, inv.cursorLe s hs⟩)
  · obtain ⟨schs', rej, hrr, hsts, hschs, hun, hta'⟩ := daStep_inr hta h
    have post := run_round_post inv hrr
    have hunrej : ∀ i ∈ st.unassigned, i ∉ rej := by
      intro i hiu hir
      obtain ⟨s, hs, hsid, hcur⟩ := post.rejStud i hir
      exact absurd (inv.unExh i hiu s hs hsid) (by omega)
    have hrejSub : ∀ i ∈ rej, ∃ s ∈ st.students, s.id = i := by
      intro i hir
      obtain ⟨s, hs, hsid, _⟩ := post.rejStud i hir
      exact ⟨s, hs, hsid⟩
    have hSN' : (st'.students.map (fun s => s.id)).Nodup := by
      rw [hsts, advanceCursors_map_id]
      exact inv.sNodup
    have hmemG : ∀ s' ∈ st'.students, ∃ s ∈ st.students, s' = bumpIf rej s := by
      intro s' hs'
      rw [hsts] at hs'
      exact advance_mem hs'
    have hcurLe' : ∀ s' ∈ st'.students,
        s'.best_unrejected ≤ s'.preferences.length := by
      intro s' hs'
      obtain ⟨s, hs, he⟩ := hmemG s' hs'
      subst he
      by_cases hr : s.id ∈ rej
      · obtain ⟨s0, hs0, hsid0, hcur0⟩ := post.rejStud s.id hr
        have he0 : s = s0 := eq_of_mem_id inv.sNodup hs hs0 (by rw [hsid0])
        subst he0
        rw [bumpIf_mem hr]
        simpa using hcur0
      · rw [bumpIf_not_mem hr]
        exact inv.cursorLe s hs
    have hnewExh : ∀ i ∈ st'.unassigned, ∀ s' ∈ st'.students, s'.id = i →
        s'.preferences.length ≤ s'.best_unrejected := by
      intro i hiu s' hs' hsid'
      rw [hun] at hiu
      rcases mem_pyUnion.mp hiu with hold | hnew
      · have hirej : i ∉ rej := hunrej i hold
        obtain ⟨s, hs, he⟩ := hmemG s' hs'
        subst he
        have hsid : s.id = i := by rw [← bumpIf_id rej s]; exact hsid'
        rw [bumpIf_not_mem (by rw [hsid]; exact hirej)]
        exact inv.unExh i hold s hs hsid
      · have hexh := (List.mem_filter.mp hnew).2
        have hfind : findStudent? st'.students i = some s' := by
          rw [← hsid']
          exact findStudent?_eq_self hSN' hs'
        have hexh2 : isExhausted st'.students i = true := by
          rw [hsts]
          simpa using hexh
        rw [isExhausted_iff hfind] at hexh2
        exact hexh2
    have hInv' : DAInv st' := by
      refine ⟨hSN', ?_, hcurLe', ?_, ?_, ?_, ?_, ?_, ?_, ?_, ?_, hnewExh, ?_, ?_⟩
      · rw [hschs, post.ids]
        exact inv.hNodup
      · intro i hi
        rw [hta'] at hi
        have hir := (List.mem_filter.mp hi).1
        rw [hsts]
        exact advance_exists_id (hrejSub i hir)
      · rw [hta']
        exact post.rejNodup.filter _
      · intro hh hhm
        rw [hschs] at hhm
        exact post.heldNodup hh hhm
      · intro hh hhm
        rw [hschs] at hhm
        exact post.heldCap hh hhm
      · intro hh hhm i hi
        rw [hschs] at hhm
        obtain ⟨s, hs, hsid, hcur, hgp⟩ := post.heldStud hh hhm i hi
        have hirej : i ∉ rej := post.heldRej hh hhm i hi
        refine ⟨s, ?_, hsid, hcur, hgp⟩
        rw [hsts]
        have := advance_mem_of rej hs
        rw [bumpIf_not_mem (by rw [hsid]; exact hirej)] at this
        exact this
      · intro hh hhm i hi
        rw [hschs] at hhm
        rw [hta']
        intro hmem
        exact post.heldRej hh hhm i hi (List.mem_filter.mp hmem).1
      · intro i hi
        rw [hun] at hi
        rw [hsts]
        rcases mem_pyUnion.mp hi with hold | hnew
        · exact advance_exists_id (inv.unSub i hold)
        · exact advance_exists_id (hrejSub i (List.mem_filter.mp hnew).1)
      · rw [hun]
        exact pyUnion_nodup inv.unNodup (post.rejNodup.filter _)
      · intro s' hs'
        obtain ⟨s, hs, he⟩ := hmemG s' hs'
        have hsid : s'.id = s.id := by rw [he]; exact bumpIf_id rej s
        have hcore : s.id ∈ st.to_apply ∨ (∃ hh ∈ st.schools, s.id ∈ hh.held) →
            s'.id ∈ st'.to_apply ∨ (∃ hh ∈ st'.schools, s'.id ∈ hh.held) ∨
            s'.id ∈ st'.unassigned := by
          intro hc
          rcases post.cover s.id hc with hnewheld | hrej
          · right; left
            obtain ⟨hh, hhm, hin⟩ := hnewheld
            exact ⟨hh, by rw [hschs]; exact hhm, by rw [hsid]; exact hin⟩
          · by_cases hex : isExhausted (advanceCursors st.students rej) s.id
            · right; right
              rw [hun, hsid]
              exact mem_pyUnion.mpr (Or.inr (List.mem_filter.mpr
                ⟨hrej, by simpa using hex⟩))
            · left
              rw [hta', hsid]
              refine List.mem_filter.mpr ⟨hrej, ?_⟩
              simp only [decide_eq_true_eq]
              intro hmem
              rcases mem_pyUnion.mp hmem with hold | hnew
              · exact hunrej s.id hold hrej
              · exact hex (List.mem_filter.mp hnew).2
        rcases inv.cover s hs with hcta | hcheld | hcun
        · exact hcore (Or.inl hcta)
        · exact hcore (Or.inr hcheld)
        · right; right
          rw [hun, hsid]
          exact mem_pyUnion.mpr (Or.inl hcun)
      · intro i hi
        rw [hta'] at hi
        rw [hun]
        have := (List.mem_filter.mp hi).2
        simpa using this
    have hTAC' : TAC st' := by
      intro i hi s' hs' hsid'
      rw [hta'] at hi
      have hir := (List.mem_filter.mp hi).1
      have hnotun := (List.mem_filter.mp hi).2
      simp only [decide_eq_true_eq] at hnotun
      have hnex : ¬ isExhausted (advanceCursors st.students rej) i = true := by
        intro hex
        exact hnotun (mem_pyUnion.mpr (Or.inr (List.mem_filter.mpr
          ⟨hir, by simpa using hex⟩)))
      have hfind : findStudent? st'.students i = some s' := by
        rw [← hsid']
        exact findStudent?_eq_self hSN' hs'
      rw [← hsts] at hnex
      rw [isExhausted_iff hfind] at hnex
      omega
    refine ⟨hInv', fun _ => hTAC', fun _ => hTAC', ?_, ?_, ?_, fun _ => ?_, ?_⟩
    · rw [hsts, advanceCursors_map_id]
    · rw [hsts, advanceCursors_map_prefs]
    · rw [hschs, post.ids]
    · cases hrej : rej with
      | nil =>
        left
        rw [hta', hrej]
        rfl
      | cons r rs =>
        right
        have hsum : sumCur st'.students = sumCur st.students + rej.length := by
          rw [hsts, sumCur_advance,
            length_filter_eq hrejSub post.rejNodup inv.sNodup]
        have hpos : 0 < rej.length := by rw [hrej]; simp
        omega
    · rw [hsts, advanceCursors_eq_map]
      apply forall2_map_self
      intro s hs
      refine ⟨bumpIf_id rej s, ?_, ?_⟩
      · unfold bumpIf
        by_cases hr : s.id ∈ rej <;> simp [hr]
      · have hmem : bumpIf rej s ∈ st'.students := by
          rw [hsts]
          exact advance_mem_of rej hs
        exact hcurLe' (bumpIf rej s) hmem

theorem daStep_some {st : DAState} (inv : DAInv st) (tac : TAC st)
    (hst : Statics st) : (daStep st).isSome := by
  by_cases hta : st.to_apply.isEmpty
  · unfold daStep
    rw [if_pos hta]
    rfl
  · have hne : st.to_apply ≠ [] := by
      intro he
      rw [he] at hta
      exact hta rfl
    obtain ⟨schs', rej, hrr⟩ := run_round_isSome inv tac hst hne
    unfold daStep
    rw [if_neg hta, hrr]
    rfl

theorem daStep_statics {st st' : DAState} (inv : DAInv st) (hst : Statics st)
    (h : daStep st = some st') : Statics st' := by
  by_cases hta : st.to_apply.isEmpty
  · unfold daStep at h
    rw [if_pos hta] at h
    injection h with h
    subst h
    exact hst
  · obtain ⟨schs', rej, hrr, hsts, hschs, hun, hta'⟩ := daStep_inr hta h
    have post := run_round_post inv hrr
    constructor
    · intro s' hs' p hp
      rw [hsts] at hs'
      obtain ⟨s, hs, he⟩ := advance_mem hs'
      rw [he, bumpIf_prefs] at hp
      obtain ⟨hh, hhm, hhid⟩ := hst.1 s hs p hp
      obtain ⟨b, hb, hR⟩ := forall2_mem_left post.fields hhm
      refine ⟨b, by rw [hschs]; exact hb, by rw [hR.1]; exact hhid⟩
    · intro s' hs' p hp b hb hbid
      rw [hsts] at hs'
      obtain ⟨s, hs, he⟩ := advance_mem hs'
      rw [he, bumpIf_prefs] at hp
      rw [hschs] at hb
      obtain ⟨a, ha, hR⟩ := forall2_mem_right post.fields hb
      have hbid2 : a.id = p := by rw [← hR.1]; exact hbid
      have hres := hst.2 s hs p hp a ha hbid2
      rw [he, bumpIf_id, ← hR.2.1] at *
      rw [← hR.2.1]
      exact hres

/-! ## The final matching construction -/

theorem pyDictInsert_fresh {acc : List (Nat × Nat)} {k v : Nat}
    (h : ∀ p ∈ acc, p.1 ≠ k) : pyDictInsert acc k v = acc ++ [(k, v)] := by
  unfold pyDictInsert
  rw [if_neg]
  intro hany
  obtain ⟨p, hp, hpk⟩ := List.any_eq_true.mp hany
  exact h p hp (by simpa using hpk)

theorem addHeldPairs_eq {students : List Student} (schId : Nat) :
    ∀ {held : List Nat} (acc : List (Nat × Nat)),
    (∀ i ∈ held, ∃ s ∈ students, s.id = i) →
    (∀ i ∈ held, ∀ p ∈ acc, p.1 ≠ i) → held.Nodup →
    addHeldPairs students schId held acc =
      some (acc ++ held.map (fun i => (i, schId))) := by
  intro held
  induction held with
  | nil =>
    intro acc _ _ _
    simp [addHeldPairs]
  | cons i rest ih =>
    intro acc hsub hfresh hnd
    obtain ⟨s, hs⟩ := Option.isSome_iff_exists.mp
      (findStudent?_isSome (hsub i (List.mem_cons_self _ _)))
    have hins : pyDictInsert acc i schId = acc ++ [(i, schId)] :=
      pyDictInsert_fresh (fun p hp => hfresh i (List.mem_cons_self _ _) p hp)
    have hrec := ih (acc ++ [(i, schId)])
      (fun j hj => hsub j (List.mem_cons_of_mem _ hj)) ?_
      (List.nodup_cons.mp hnd).2
    · rw [show addHeldPairs students schId (i :: rest) acc =
        (findStudent? students i).bind
          (fun _ => addHeldPairs students schId rest (pyDictInsert acc i schId))
        from rfl]
      rw [hs]
      show addHeldPairs students schId rest (pyDictInsert acc i schId) = _
      rw [hins, hrec]
      simp
    · intro j hj p hp
      rcases List.mem_append.mp hp with hpa | hpn
      · exact hfresh j (List.mem_cons_of_mem _ hj) p hpa
      · have : p = (i, schId) := by simpa using hpn
        rw [this]
        intro he
        have hij : i = j := he
        exact (List.nodup_cons.mp hnd).1 (by rw [hij]; exact hj)

theorem buildMatches_eq {students : List Student} :
    ∀ {schools : List School} (acc : List (Nat × Nat)),
    (∀ h ∈ schools, ∀ i ∈ h.held, ∃ s ∈ students, s.id = i) →
    (∀ h ∈ schools, ∀ i ∈ h.held, ∀ p ∈ acc, p.1 ≠ i) →
    (∀ h ∈ schools, h.held.Nodup) →
    List.Pairwise (fun h1 h2 => ∀ i ∈ h1.held, i ∉ h2.held) schools →
    buildMatches students schools acc =
      some (acc ++ schools.flatMap (fun h => h.held.map (fun i => (i, h.id)))) := by
  intro schools
  induction schools with
  | nil =>
    intro acc _ _ _ _
    simp [buildMatches]
  | cons sch rest ih =>
    intro acc hsub hfresh hnd hpw
    have hhead := addHeldPairs_eq sch.id acc
      (hsub sch (List.mem_cons_self _ _))
      (hfresh sch (List.mem_cons_self _ _)) (hnd sch (List.mem_cons_self _ _))
    have hpw' := List.pairwise_cons.mp hpw
    have hrec := ih (acc ++ sch.held.map (fun i => (i, sch.id)))
      (fun h hm i hi => hsub h (List.mem_cons_of_mem _ hm) i hi) ?_
      (fun h hm => hnd h (List.mem_cons_of_mem _ hm)) hpw'.2
    · rw [show buildMatches students (sch :: rest) acc =
        (addHeldPairs students sch.id sch.held acc).bind
          (fun acc2 => buildMatches students rest acc2) from rfl]
      rw [hhead]
      show buildMatches students rest (acc ++ sch.held.map (fun i => (i, sch.id))) = _
      rw [hrec]
      simp
    · intro h hm i hi p hp
      rcases List.mem_append.mp hp with hpa | hpn
      · exact hfresh h (List.mem_cons_of_mem _ hm) i hi p hpa
      · obtain ⟨j, hj, he⟩ := List.mem_map.mp hpn
        rw [← he]
        intro hji
        exact hpw'.1 h hm j hj (by rw [show j = i from hji]; exact hi)

theorem inv_held_pairwise {st : DAState} (inv : DAInv st) :
    List.Pairwise (fun h1 h2 => ∀ i ∈ h1.held, i ∉ h2.held) st.schools := by
  have hp : st.schools.Pairwise (fun a b => a.id ≠ b.id) :=
    (List.pairwise_map.mp inv.hNodup)
  refine List.Pairwise.imp_of_mem ?_ hp
  intro a b ha hb hne i hia hib
  obtain ⟨s1, hm1, hid1, _, hg1⟩ := inv.heldStud a ha i hia
  obtain ⟨s2, hm2, hid2, _, hg2⟩ := inv.heldStud b hb i hib
  have he : s1 = s2 := eq_of_mem_id inv.sNodup hm1 hm2 (by rw [hid1, hid2])
  subst he
  rw [hg1] at hg2
  exact hne (Option.some.inj hg2)

theorem buildMatching_eq {st : DAState} (inv : DAInv st) :
    buildMatching st = some ⟨st.schools.flatMap
      (fun h => h.held.map (fun i => (i, h.id))), st.unassigned⟩ := by
  unfold buildMatching
  rw [buildMatches_eq [] (fun h hm i hi => inv.heldStud h hm i hi |>.imp
    (fun s hs => ⟨hs.1, hs.2.1⟩)) (by simp) inv.heldNodup (inv_held_pairwise inv)]
  simp

theorem count_pairs {schs : List School}
    (hn : (schs.map (fun h => h.id)).Nodup) {h : School} (hm : h ∈ schs) :
    ((schs.flatMap (fun sch => sch.held.map (fun i => (i, sch.id)))).filter
      (fun p => p.2 = h.id)).length = h.held.length := by
  induction schs with
  | nil => simp at hm
  | cons sch rest ih =>
    simp only [List.map_cons, List.nodup_cons] at hn
    rw [List.flatMap_cons, List.filter_append, List.length_append]
    rcases List.mem_cons.mp hm with rfl | hm'
    · have h1 : (h.held.map (fun i => (i, h.id))).filter (fun p => p.2 = h.id) =
          h.held.map (fun i => (i, h.id)) := by
        apply List.filter_eq_self.mpr
        intro p hp
        obtain ⟨j, hj, he⟩ := List.mem_map.mp hp
        rw [← he]
        simp
      have h2 : (rest.flatMap (fun sch => sch.held.map
          (fun i => (i, sch.id)))).filter (fun p => p.2 = h.id) = [] := by
        apply List.filter_eq_nil_iff.mpr
        intro p hp
        obtain ⟨sch', hsch', hpm⟩ := List.mem_flatMap.mp hp
        obtain ⟨j, hj, he⟩ := List.mem_map.mp hpm
        rw [← he]
        simp only [decide_eq_true_eq]
        intro he2
        exact hn.1 (he2 ▸ List.mem_map_of_mem (fun hh => hh.id) hsch')
      rw [h1, h2]
      simp
    · have hne : sch.id ≠ h.id := by
        intro he
        exact hn.1 (he ▸ List.mem_map_of_mem (fun hh => hh.id) hm')
      have h1 : (sch.held.map (fun i => (i, sch.id))).filter
          (fun p => p.2 = h.id) = [] := by
        apply List.filter_eq_nil_iff.mpr
        intro p hp
        obtain ⟨j, hj, he⟩ := List.mem_map.mp hp
        rw [← he]
        simpa using hne
      rw [h1, ih hn.2 hm']
      simp

theorem addHeldPairs_isSome {students : List Student} {schId : Nat} :
    ∀ {held : List Nat},
    (∀ i ∈ held, ∃ s ∈ students, s.id = i) →
    ∀ acc, (addHeldPairs students schId held acc).isSome := by
  intro held
  induction held with
  | nil => intro _ acc; rfl
  | cons i rest ih =>
    intro h acc
    obtain ⟨s, hs⟩ := Option.isSome_iff_exists.mp
      (findStudent?_isSome (h i (List.mem_cons_self _ _)))
    rw [show addHeldPairs students schId (i :: rest) acc =
      (findStudent? students i).bind
        (fun _ => addHeldPairs students schId rest (pyDictInsert acc i schId))
      from rfl]
    rw [hs]
    exact ih (fun j hj => h j (List.mem_cons_of_mem _ hj)) _

theorem buildMatching_isSome {st : DAState} (inv : DAInv st) :
    (buildMatching st).isSome := by
  rw [buildMatching_eq inv]
  rfl

theorem daFinish_ne_fuel (st : DAState) : daFinish st ≠ DAOut.outOfFuel := by
  unfold daFinish
  cases buildMatching st <;> simp

theorem daFinish_ok {st : DAState} {m : Matching} {sts' : List Student}
    {schs' : List School} (h : daFinish st = DAOut.ok m sts' schs') :
    st.students = sts' ∧ st.schools = schs' ∧ buildMatching st = some m := by
  unfold daFinish at h
  cases hb : buildMatching st with
  | none => rw [hb] at h; exact absurd h (by simp)
  | some m0 =>
    rw [hb] at h
    injection h with h1 h2 h3
    exact ⟨h2, h3, by rw [h1]⟩

/-! ## The orchestrator loop -/

theorem slack_pos {st : DAState} (inv : DAInv st) (tac : TAC st)
    (hta : ¬ st.to_apply.isEmpty = true) :
    sumCur st.students < totalPrefLen st.students := by
  cases hta2 : st.to_apply with
  | nil => rw [hta2] at hta; exact absurd rfl hta
  | cons a l =>
    have ha : a ∈ st.to_apply := by rw [hta2]; exact List.mem_cons_self _ _
    obtain ⟨s, hs, hsid⟩ := inv.taSub a ha
    exact sumCur_lt hs inv.cursorLe (tac a ha s hs hsid)

theorem daLoop_no_fuel (fuel : Nat) : ∀ {st : DAState}, DAInv st → TAC st →
    (¬ st.to_apply.isEmpty = true →
      totalPrefLen st.students - sumCur st.students ≤ fuel) →
    daLoop fuel st ≠ DAOut.outOfFuel := by
  induction fuel with
  | zero =>
    intro st inv tac hslack
    unfold daLoop
    by_cases hta : st.to_apply.isEmpty
    · rw [if_pos hta]
      exact daFinish_ne_fuel st
    · exfalso
      have h1 := slack_pos inv tac hta
      have h2 := hslack hta
      omega
  | succ f ih =>
    intro st inv tac hslack
    unfold daLoop
    by_cases hta : st.to_apply.isEmpty
    · rw [if_pos hta]
      exact daFinish_ne_fuel st
    · rw [if_neg hta]
      cases hstep : daStep st with
      | none => simp
      | some st' =>
        obtain ⟨inv', htac1, htac2, hids, hprefs, hsids, hsum, _⟩ :=
          daStep_spec inv hstep
        apply ih inv' (htac2 hta)
        intro hta'
        rcases hsum hta with hempty | hlt
        · exfalso
          rw [hempty] at hta'
          exact hta' rfl
        · have hT : totalPrefLen st'.students = totalPrefLen st.students :=
            totalPrefLen_map hprefs
          have hs1 : sumCur st'.students ≤ totalPrefLen st'.students :=
            sumCur_le inv'.cursorLe
          have h2 := hslack hta
          omega

theorem daLoop_total (fuel : Nat) : ∀ {st : DAState}, DAInv st → TAC st →
    Statics st →
    (¬ st.to_apply.isEmpty = true →
      totalPrefLen st.students - sumCur st.students ≤ fuel) →
    ∃ m sts' schs', daLoop fuel st = DAOut.ok m sts' schs' := by
  induction fuel with
  | zero =>
    intro st inv tac hst hslack
    by_cases hta : st.to_apply.isEmpty
    · unfold daLoop
      rw [if_pos hta]
      refine ⟨⟨st.schools.flatMap (fun h => h.held.map (fun i => (i, h.id))),
        st.unassigned⟩, st.students, st.schools, ?_⟩
      unfold daFinish
      rw [buildMatching_eq inv]
    · exfalso
      have h1 := slack_pos inv tac hta
      have h2 := hslack hta
      omega
  | succ f ih =>
    intro st inv tac hst hslack
    by_cases hta : st.to_apply.isEmpty
    · unfold daLoop
      rw [if_pos hta]
      refine ⟨⟨st.schools.flatMap (fun h => h.held.map (fun i => (i, h.id))),
        st.unassigned⟩, st.students, st.schools, ?_⟩
      unfold daFinish
      rw [buildMatching_eq inv]
    · obtain ⟨st', hstep⟩ := Option.isSome_iff_exists.mp (daStep_some inv tac hst)
      obtain ⟨inv', htac1, htac2, hids, hprefs, hsids, hsum, _⟩ :=
        daStep_spec inv hstep
      have hcond : ¬ st'.to_apply.isEmpty = true →
          totalPrefLen st'.students - sumCur st'.students ≤ f := by
        intro hta'
        rcases hsum hta with hempty | hlt
        · exfalso
          rw [hempty] at hta'
          exact hta' rfl
        · have hT : totalPrefLen st'.students = totalPrefLen st.students :=
            totalPrefLen_map hprefs
          have hs1 : sumCur st'.students ≤ totalPrefLen st'.students :=
            sumCur_le inv'.cursorLe
          have h1 := slack_pos inv tac hta
          have h2 := hslack hta
          omega
      obtain ⟨m, sts', schs', hrec⟩ := ih inv' (htac2 hta)
        (daStep_statics inv hst hstep) hcond
      refine ⟨m, sts', schs', ?_⟩
      unfold daLoop
      rw [if_neg hta, hstep]
      exact hrec

theorem daLoop_ok (fuel : Nat) : ∀ {st : DAState} {m : Matching}
    {sts' : List Student} {schs' : List School}, DAInv st →
    daLoop fuel st = DAOut.ok m sts' schs' →
    ∃ stF : DAState, DAInv stF ∧ stF.to_apply = [] ∧ stF.students = sts' ∧
      stF.schools = schs' ∧ buildMatching stF = some m ∧
      stF.students.map (fun s => s.id) = st.students.map (fun s => s.id) := by
  induction fuel with
  | zero =>
    intro st m sts' schs' inv h
    unfold daLoop at h
    by_cases hta : st.to_apply.isEmpty
    · rw [if_pos hta] at h
      obtain ⟨h1, h2, h3⟩ := daFinish_ok h
      exact ⟨st, inv, List.isEmpty_iff.mp hta, h1, h2, h3, rfl⟩
    · rw [if_neg hta] at h
      exact absurd h (by simp)
  | succ f ih =>
    intro st m sts' schs' inv h
    unfold daLoop at h
    by_cases hta : st.to_apply.isEmpty
    · rw [if_pos hta] at h
      obtain ⟨h1, h2, h3⟩ := daFinish_ok h
      exact ⟨st, inv, List.isEmpty_iff.mp hta, h1, h2, h3, rfl⟩
    · rw [if_neg hta] at h
      cases hstep : daStep st with
      | none => rw [hstep] at h; exact absurd h (by simp)
      | some st1 =>
        rw [hstep] at h
        obtain ⟨inv1, _, _, hids, _, _, _, _⟩ := daStep_spec inv hstep
        obtain ⟨stF, invF, hta0, hs1, hs2, hs3, hs4⟩ := ih inv1 h
        exact ⟨stF, invF, hta0, hs1, hs2, hs3, by rw [hs4, hids]⟩

theorem daIter_inv {k : Nat} : ∀ {st st' : DAState}, DAInv st → TAC st →
    daIter k st = some st' → DAInv st' ∧ TAC st' := by
  induction k with
  | zero =>
    intro st st' inv tac h
    injection h with h
    subst h
    exact ⟨inv, tac⟩
  | succ n ih =>
    intro st st' inv tac h
    unfold daIter at h
    cases hstep : daStep st with
    | none => rw [hstep] at h; exact absurd h (by simp)
    | some st1 =>
      rw [hstep] at h
      obtain ⟨inv1, htac1, _, _, _, _, _, _⟩ := daStep_spec inv hstep
      exact ih inv1 (htac1 tac) h

theorem daInit_inv {students : List Student} {schools : List School}
    (hsid : (students.map (fun s => s.id)).Nodup)
    (hhid : (schools.map (fun h => h.id)).Nodup)
    (hc0 : ∀ s ∈ students, s.best_unrejected = 0)
    (hh0 : ∀ h ∈ schools, h.held = []) :
    DAInv (daInit students schools) := by
  refine ⟨hsid, hhid, ?_, ?_, hsid, ?_, ?_, ?_, ?_, ?_, ?_, ?_, ?_, ?_⟩
  · intro s hs
    rw [hc0 s hs]
    exact Nat.zero_le _
  · intro i hi
    obtain ⟨s, hs, hsid2⟩ := List.mem_map.mp hi
    exact ⟨s, hs, hsid2⟩
  · intro h hm
    rw [hh0 h hm]
    exact List.nodup_nil
  · intro h hm
    rw [hh0 h hm]
    exact Nat.zero_le _
  · intro h hm i hi
    rw [hh0 h hm] at hi
    simp at hi
  · intro h hm i hi
    rw [hh0 h hm] at hi
    simp at hi
  · intro i hi
    simp [daInit] at hi
  · exact List.nodup_nil
  · intro i hi
    simp [daInit] at hi
  · intro s hs
    exact Or.inl (List.mem_map_of_mem _ hs)
  · intro i hi
    simp [daInit]

theorem daInit_tac (students : List Student) (schools : List School)
    (hc0 : ∀ s ∈ students, s.best_unrejected = 0)
    (hne : ∀ s ∈ students, s.preferences ≠ []) :
    TAC (daInit students schools) := by
  intro i hi s hs hsid
  rw [hc0 s hs]
  exact List.length_pos_of_ne_nil (hne s hs)

theorem sumCur_init {students : List Student}
    (hc0 : ∀ s ∈ students, s.best_unrejected = 0) : sumCur students = 0 := by
  apply List.sum_eq_zero
  intro x hx
  obtain ⟨s, hs, he⟩ := List.mem_map.mp hx
  rw [← he]
  exact hc0 s hs

/-! ## Concrete evaluations settling the claims that fail on the code -/

/-- C1: `run_round` is claimed to keep, for each host, the top `capacity`
candidates of its pool in the host's own priority order, which on the input
Applicants 1:[10,20], 2:[10,20], Hosts 10:priority[1,2] cap 1,
20:priority[1,2] cap 1 would produce 1↦10, 2↦20.  The code instead uses
`heapq.nlargest` with `preferences.index` as the key, keeping the
lowest-priority candidates, so it produces 1↦20, 2↦10. -/
theorem c1_round_keeps_lowest_priority :
    deferred_acceptance [⟨1, [10, 20], 0⟩, ⟨2, [10, 20], 0⟩]
      [⟨10, [1, 2], 1, []⟩, ⟨20, [1, 2], 1, []⟩] =
    DAOut.ok ⟨[(2, 10), (1, 20)], []⟩
      [⟨1, [10, 20], 1⟩, ⟨2, [10, 20], 0⟩]
      [⟨10, [1, 2], 1, [2]⟩, ⟨20, [1, 2], 1, [1]⟩] := rfl

/-- C2: the matching `deferred_acceptance` produces on the two-student,
two-school input above is claimed stable, but `find_unstable_pair` applied to
that very output returns the pair (1, 10) instead of none: student 1 is
assigned to 20 but prefers 10, and 10 prefers student 1 to the student 2 it
holds. -/
theorem c2_produced_matching_is_unstable :
    deferred_acceptance [⟨1, [10, 20], 0⟩, ⟨2, [10, 20], 0⟩]
      [⟨10, [1, 2], 1, []⟩, ⟨20, [1, 2], 1, []⟩] =
    DAOut.ok ⟨[(2, 10), (1, 20)], []⟩
      [⟨1, [10, 20], 1⟩, ⟨2, [10, 20], 0⟩]
      [⟨10, [1, 2], 1, [2]⟩, ⟨20, [1, 2], 1, [1]⟩] ∧
    find_unstable_pair [⟨1, [10, 20], 1⟩, ⟨2, [10, 20], 0⟩]
      [⟨10, [1, 2], 1, [2]⟩, ⟨20, [1, 2], 1, [1]⟩]
      ⟨[(2, 10), (1, 20)], []⟩ = some (some (1, 10)) := ⟨rfl, rfl⟩

/-- C3: pair (1, 10) satisfies the spec's instability definition — student 1
is unassigned and ranks school 10, and school 10 prefers student 1 to its
held student 2 — yet `find_unstable_pair` returns none, because its guard
`if student not in matching.unassigned` skips every unassigned student. -/
theorem c3_auditor_skips_unassigned :
    find_unstable_pair [⟨1, [10], 0⟩, ⟨2, [10], 0⟩] [⟨10, [1, 2], 1, [2]⟩]
      ⟨[(2, 10)], [1]⟩ = some none ∧
    unstablePairSpec ⟨[(2, 10)], [1]⟩ ⟨1, [10], 0⟩ ⟨10, [1, 2], 1, [2]⟩ = true :=
  ⟨rfl, rfl⟩

/-- C4: on a structurally valid matching (1↦20, 2↦10, nobody unassigned) in
which matched student 2 is absent from school 10's priority list,
`find_unstable_pair` raises an uncaught `ValueError` inside `school_prefers`
(modelled as `none`) instead of returning a pair or none. -/
theorem c4_auditor_raises_on_unranked_student :
    find_unstable_pair [⟨1, [10, 20], 0⟩, ⟨2, [10], 0⟩]
      [⟨10, [1], 1, [2]⟩, ⟨20, [1], 1, [1]⟩] ⟨[(1, 20), (2, 10)], []⟩ = none := rfl

/-- C5 counterexample: an applicant whose preference list is empty (all of
its preference entries vacuously name supplied counterparts) is submitted to
`run_round` in round 1 with cursor 0 = len(preferences); the round raises an
IndexError (modelled as `DAOut.err`) rather than making the applicant
Unassigned without proposing. -/
theorem c5_counterexample_empty_preferences :
    deferred_acceptance [⟨1, [], 0⟩] [] = DAOut.err := rfl

/-- C7 counterexample: with valid cross-references and non-empty preference
lists (1 ranks 10, 2 ranks 20, 10 ranks 2, 20 ranks 1), student 1 proposes to
school 10, which does not rank student 1; `preferences.index` raises a
ValueError and `deferred_acceptance` aborts, returning no Matching at all, so
no Matching covering every applicant is produced. -/
theorem c7_counterexample_no_matching_produced :
    deferred_acceptance [⟨1, [10], 0⟩, ⟨2, [20], 0⟩]
      [⟨10, [2], 1, []⟩, ⟨20, [1], 1, []⟩] = DAOut.err := rfl

/-- C9: called with an empty `to_apply`, `run_round` executes `return True`,
producing the bool `True` rather than the empty set of rejected applicants
promised by its annotation `-> Set[Student]`. -/
theorem c9_run_round_empty_returns_true (students : List Student)
    (schools : List School) :
    run_round students schools [] = some (Sum.inl true) := rfl

/-- C10: `deferred_acceptance` mutates its inputs in place: after the call on
the two-student, two-school input the caller's student objects have an
advanced cursor and the school objects have overwritten held lists (the
returned registries, which the Matching's keys and values alias, differ from
the initial ones), so a second call on the same objects does not start from
the initial configuration. -/
theorem c10_inputs_mutated_in_place :
    deferred_acceptance [⟨1, [10, 20], 0⟩, ⟨2, [10, 20], 0⟩]
      [⟨10, [1, 2], 1, []⟩, ⟨20, [1, 2], 1, []⟩] =
      DAOut.ok ⟨[(2, 10), (1, 20)], []⟩
        [⟨1, [10, 20], 1⟩, ⟨2, [10, 20], 0⟩]
        [⟨10, [1, 2], 1, [2]⟩, ⟨20, [1, 2], 1, [1]⟩] ∧
    ([⟨1, [10, 20], 1⟩, ⟨2, [10, 20], 0⟩] : List Student) ≠
      [⟨1, [10, 20], 0⟩, ⟨2, [10, 20], 0⟩] ∧
    ([⟨10, [1, 2], 1, [2]⟩, ⟨20, [1, 2], 1, [1]⟩] : List School) ≠
      [⟨10, [1, 2], 1, []⟩, ⟨20, [1, 2], 1, []⟩] :=
  ⟨rfl, by decide, by decide⟩

/-! ## The claims about whole runs -/

/-- C5 (amended): provided additionally that every applicant's preference
list is non-empty and every applicant is ranked by each host on its
preference list, every applicant submitted to `run_round` in any round has
cursor < len(preferences), and the whole run completes without an
out-of-range or failed-lookup error.  (As stated the claim is false: see
`c5_counterexample_empty_preferences` — an applicant with an empty
preference list is submitted in round 1 and raises an IndexError instead of
becoming Unassigned, and a proposer absent from the chosen host's priority
list makes `preferences.index` raise.) -/
theorem c5_safety_amended (students : List Student) (schools : List School)
    (hsid : (students.map (fun s => s.id)).Nodup)
    (hhid : (schools.map (fun h => h.id)).Nodup)
    (hc0 : ∀ s ∈ students, s.best_unrejected = 0)
    (hh0 : ∀ h ∈ schools, h.held = [])
    (hne : ∀ s ∈ students, s.preferences ≠ [])
    (hpv : ∀ s ∈ students, ∀ p ∈ s.preferences, ∃ h ∈ schools, h.id = p)
    (hmr : ∀ s ∈ students, ∀ p ∈ s.preferences, ∀ h ∈ schools, h.id = p →
      s.id ∈ h.preferences) :
    (∀ k st, daIter k (daInit students schools) = some st →
      ∀ i ∈ st.to_apply, ∃ s, findStudent? st.students i = some s ∧
        s.best_unrejected < s.preferences.length) ∧
    (∃ m sts' schs', deferred_acceptance students schools =
      DAOut.ok m sts' schs') := by
  have hinv0 := daInit_inv hsid hhid hc0 hh0
  have htac0 := daInit_tac students schools hc0 hne
  constructor
  · intro k st hiter i hi
    obtain ⟨inv, tac⟩ := daIter_inv hinv0 htac0 hiter
    obtain ⟨s, hs, hsid2⟩ := inv.taSub i hi
    refine ⟨s, ?_, tac i hi s hs hsid2⟩
    rw [← hsid2]
    exact findStudent?_eq_self inv.sNodup hs
  · exact daLoop_total (totalPrefLen students + students.length + 1) hinv0
      htac0 ⟨hpv, hmr⟩ (fun _ => by
        have he : (daInit students schools).students = students := rfl
        rw [he]
        omega)

theorem c5_safety_amended_witness :
    ((([⟨1, [10, 20], 0⟩, ⟨2, [10, 20], 0⟩] : List Student).map
        (fun s => s.id)).Nodup ∧
      (([⟨10, [1, 2], 1, []⟩, ⟨20, [1, 2], 1, []⟩] : List School).map
        (fun h => h.id)).Nodup ∧
      (∀ s ∈ ([⟨1, [10, 20], 0⟩, ⟨2, [10, 20], 0⟩] : List Student),
        s.best_unrejected = 0) ∧
      (∀ h ∈ ([⟨10, [1, 2], 1, []⟩, ⟨20, [1, 2], 1, []⟩] : List School),
        h.held = []) ∧
      (∀ s ∈ ([⟨1, [10, 20], 0⟩, ⟨2, [10, 20], 0⟩] : List Student),
        s.preferences ≠ []) ∧
      (∀ s ∈ ([⟨1, [10, 20], 0⟩, ⟨2, [10, 20], 0⟩] : List Student),
        ∀ p ∈ s.preferences,
          ∃ h ∈ ([⟨10, [1, 2], 1, []⟩, ⟨20, [1, 2], 1, []⟩] : List School),
            h.id = p) ∧
      (∀ s ∈ ([⟨1, [10, 20], 0⟩, ⟨2, [10, 20], 0⟩] : List Student),
        ∀ p ∈ s.preferences,
          ∀ h ∈ ([⟨10, [1, 2], 1, []⟩, ⟨20, [1, 2], 1, []⟩] : List School),
            h.id = p → s.id ∈ h.preferences)) ∧
    ((∀ k st, daIter k (daInit [⟨1, [10, 20], 0⟩, ⟨2, [10, 20], 0⟩]
        [⟨10, [1, 2], 1, []⟩, ⟨20, [1, 2], 1, []⟩]) = some st →
      ∀ i ∈ st.to_apply, ∃ s, findStudent? st.students i = some s ∧
        s.best_unrejected < s.preferences.length) ∧
    (∃ m sts' schs', deferred_acceptance [⟨1, [10, 20], 0⟩, ⟨2, [10, 20], 0⟩]
      [⟨10, [1, 2], 1, []⟩, ⟨20, [1, 2], 1, []⟩] = DAOut.ok m sts' schs')) :=
  ⟨⟨by decide, by decide, by decide, by decide, by decide, by decide,
      by decide⟩,
    c5_safety_amended [⟨1, [10, 20], 0⟩, ⟨2, [10, 20], 0⟩] [⟨10, [1, 2], 1, []⟩, ⟨20, [1, 2], 1, []⟩] (by decide) (by decide) (by decide) (by decide)
      (by decide) (by decide) (by decide)⟩

/-- C6: for every Matching produced by `deferred_acceptance` (fresh inputs:
distinct ids, cursors 0, empty held lists) and every host in the returned
registry, the number of applicants mapped to that host in `matches` equals
the size of the host's held list at termination and is at most the host's
capacity. -/
theorem c6_capacity_counts (students : List Student) (schools : List School)
    (m : Matching) (sts' : List Student) (schs' : List School)
    (hsid : (students.map (fun s => s.id)).Nodup)
    (hhid : (schools.map (fun h => h.id)).Nodup)
    (hc0 : ∀ s ∈ students, s.best_unrejected = 0)
    (hh0 : ∀ h ∈ schools, h.held = [])
    (hok : deferred_acceptance students schools = DAOut.ok m sts' schs') :
    ∀ h ∈ schs', (m.matches_.filter (fun p => p.2 = h.id)).length =
      h.held.length ∧ h.held.length ≤ h.capacity := by
  have hinv0 : DAInv (daInit students schools) := daInit_inv hsid hhid hc0 hh0
  obtain ⟨stF, invF, htaF, hstsF, hschsF, hbm, hidsF⟩ := daLoop_ok (totalPrefLen students + students.length + 1) hinv0 hok
  rw [buildMatching_eq invF] at hbm
  injection hbm with hbm
  intro h hm
  have hm2 : h ∈ stF.schools := by rw [hschsF]; exact hm
  constructor
  · rw [← hbm]
    exact count_pairs invF.hNodup hm2
  · exact invF.heldCap h hm2

theorem c6_capacity_counts_witness :
    ((([⟨1, [10, 20], 0⟩, ⟨2, [10, 20], 0⟩] : List Student).map
        (fun s => s.id)).Nodup ∧
      (([⟨10, [1, 2], 1, []⟩, ⟨20, [1, 2], 1, []⟩] : List School).map
        (fun h => h.id)).Nodup ∧
      (∀ s ∈ ([⟨1, [10, 20], 0⟩, ⟨2, [10, 20], 0⟩] : List Student),
        s.best_unrejected = 0) ∧
      (∀ h ∈ ([⟨10, [1, 2], 1, []⟩, ⟨20, [1, 2], 1, []⟩] : List School),
        h.held = []) ∧
      deferred_acceptance [⟨1, [10, 20], 0⟩, ⟨2, [10, 20], 0⟩]
        [⟨10, [1, 2], 1, []⟩, ⟨20, [1, 2], 1, []⟩] =
        DAOut.ok ⟨[(2, 10), (1, 20)], []⟩ [⟨1, [10, 20], 1⟩, ⟨2, [10, 20], 0⟩]
          [⟨10, [1, 2], 1, [2]⟩, ⟨20, [1, 2], 1, [1]⟩]) ∧
    (∀ h ∈ ([⟨10, [1, 2], 1, [2]⟩, ⟨20, [1, 2], 1, [1]⟩] : List School),
      ((([(2, 10), (1, 20)] : List (Nat × Nat)).filter
        (fun p => p.2 = h.id)).length = h.held.length ∧
        h.held.length ≤ h.capacity)) :=
  ⟨⟨by decide, by decide, by decide, by decide, by decide⟩,
    c6_capacity_counts [⟨1, [10, 20], 0⟩, ⟨2, [10, 20], 0⟩] [⟨10, [1, 2], 1, []⟩, ⟨20, [1, 2], 1, []⟩] ⟨[(2, 10), (1, 20)], []⟩
      [⟨1, [10, 20], 1⟩, ⟨2, [10, 20], 0⟩]
      [⟨10, [1, 2], 1, [2]⟩, ⟨20, [1, 2], 1, [1]⟩]
      (by decide) (by decide) (by decide) (by decide) (by decide)⟩

/-- C7 (amended): for inputs with valid cross-references, non-empty
preference lists, and every applicant ranked by each host on its list,
`deferred_acceptance` returns a Matching in which every input applicant
appears in exactly one of `matches.keys()` and `unassigned`.  (As stated the
claim is false: see `c7_counterexample_no_matching_produced` — with valid
cross-references alone the run can abort with a lookup error and return no
Matching.) -/
theorem c7_coverage_amended (students : List Student) (schools : List School)
    (hsid : (students.map (fun s => s.id)).Nodup)
    (hhid : (schools.map (fun h => h.id)).Nodup)
    (hc0 : ∀ s ∈ students, s.best_unrejected = 0)
    (hh0 : ∀ h ∈ schools, h.held = [])
    (hne : ∀ s ∈ students, s.preferences ≠ [])
    (hpv : ∀ s ∈ students, ∀ p ∈ s.preferences, ∃ h ∈ schools, h.id = p)
    (hmr : ∀ s ∈ students, ∀ p ∈ s.preferences, ∀ h ∈ schools, h.id = p →
      s.id ∈ h.preferences) :
    ∃ m sts' schs', deferred_acceptance students schools =
      DAOut.ok m sts' schs' ∧
      ∀ s ∈ students, ((∃ q ∈ m.matches_, q.1 = s.id) ∧ s.id ∉ m.unassigned) ∨
        ((¬ ∃ q ∈ m.matches_, q.1 = s.id) ∧ s.id ∈ m.unassigned) := by
  have hinv0 := daInit_inv hsid hhid hc0 hh0
  have htac0 := daInit_tac students schools hc0 hne
  obtain ⟨m, sts', schs', hok⟩ := daLoop_total
    (totalPrefLen students + students.length + 1) hinv0 htac0 ⟨hpv, hmr⟩
    (fun _ => by
      have he : (daInit students schools).students = students := rfl
      rw [he]
      omega)
  refine ⟨m, sts', schs', hok, ?_⟩
  obtain ⟨stF, invF, htaF, hstsF, hschsF, hbm, hidsF⟩ := daLoop_ok (totalPrefLen students + students.length + 1) hinv0 hok
  rw [buildMatching_eq invF] at hbm
  injection hbm with hbm
  intro s hs
  have hsmem : s.id ∈ stF.students.map (fun t => t.id) := by
    rw [hidsF]
    exact List.mem_map_of_mem _ hs
  obtain ⟨sF, hsF, hsFid⟩ := List.mem_map.mp hsmem
  rcases invF.cover sF hsF with hta | hheld | hun
  · rw [htaF] at hta
    simp at hta
  · left
    obtain ⟨hh, hhm, hin⟩ := hheld
    constructor
    · refine ⟨(sF.id, hh.id), ?_, by rw [hsFid]⟩
      rw [← hbm]
      exact List.mem_flatMap.mpr ⟨hh, hhm, List.mem_map_of_mem _ hin⟩
    · rw [← hbm]
      show s.id ∉ stF.unassigned
      rw [← hsFid]
      intro hmem
      obtain ⟨s1, hm1, hid1, hcur1, _⟩ := invF.heldStud hh hhm sF.id hin
      exact absurd (invF.unExh sF.id hmem s1 hm1 hid1) (by omega)
  · right
    constructor
    · rw [← hbm]
      rintro ⟨q, hq, hq1⟩
      obtain ⟨hh, hhm, hqm⟩ := List.mem_flatMap.mp hq
      obtain ⟨j, hj, he⟩ := List.mem_map.mp hqm
      have hjid : j = sF.id := by
        rw [← he] at hq1
        rw [hsFid]
        exact hq1
      rw [hjid] at hj
      obtain ⟨s1, hm1, hid1, hcur1, _⟩ := invF.heldStud hh hhm sF.id hj
      exact absurd (invF.unExh sF.id hun s1 hm1 hid1) (by omega)
    · rw [← hbm]
      show s.id ∈ stF.unassigned
      rw [← hsFid]
      exact hun

theorem c7_coverage_amended_witness :
    ((([⟨1, [10, 20], 0⟩, ⟨2, [10, 20], 0⟩] : List Student).map
        (fun s => s.id)).Nodup ∧
      (([⟨10, [1, 2], 1, []⟩, ⟨20, [1, 2], 1, []⟩] : List School).map
        (fun h => h.id)).Nodup ∧
      (∀ s ∈ ([⟨1, [10, 20], 0⟩, ⟨2, [10, 20], 0⟩] : List Student),
        s.best_unrejected = 0) ∧
      (∀ h ∈ ([⟨10, [1, 2], 1, []⟩, ⟨20, [1, 2], 1, []⟩] : List School),
        h.held = []) ∧
      (∀ s ∈ ([⟨1, [10, 20], 0⟩, ⟨2, [10, 20], 0⟩] : List Student),
        s.preferences ≠ []) ∧
      (∀ s ∈ ([⟨1, [10, 20], 0⟩, ⟨2, [10, 20], 0⟩] : List Student),
        ∀ p ∈ s.preferences,
          ∃ h ∈ ([⟨10, [1, 2], 1, []⟩, ⟨20, [1, 2], 1, []⟩] : List School),
            h.id = p) ∧
      (∀ s ∈ ([⟨1, [10, 20], 0⟩, ⟨2, [10, 20], 0⟩] : List Student),
        ∀ p ∈ s.preferences,
          ∀ h ∈ ([⟨10, [1, 2], 1, []⟩, ⟨20, [1, 2], 1, []⟩] : List School),
            h.id = p → s.id ∈ h.preferences)) ∧
    (∃ m sts' schs', deferred_acceptance [⟨1, [10, 20], 0⟩, ⟨2, [10, 20], 0⟩]
      [⟨10, [1, 2], 1, []⟩, ⟨20, [1, 2], 1, []⟩] = DAOut.ok m sts' schs' ∧
      ∀ s ∈ ([⟨1, [10, 20], 0⟩, ⟨2, [10, 20], 0⟩] : List Student),
        ((∃ q ∈ m.matches_, q.1 = s.id) ∧ s.id ∉ m.unassigned) ∨
        ((¬ ∃ q ∈ m.matches_, q.1 = s.id) ∧ s.id ∈ m.unassigned)) :=
  ⟨⟨by decide, by decide, by decide, by decide, by decide, by decide,
      by decide⟩,
    c7_coverage_amended [⟨1, [10, 20], 0⟩, ⟨2, [10, 20], 0⟩] [⟨10, [1, 2], 1, []⟩, ⟨20, [1, 2], 1, []⟩] (by decide) (by decide) (by decide) (by decide)
      (by decide) (by decide) (by decide)⟩

/-- C8: on fresh inputs with valid cross-references and non-empty preference
lists, (1) the orchestrator loop finishes within `totalPrefLen` rounds — the
fuelled loop run with exactly the sum of all preference-list lengths never
reports `outOfFuel`; (2) across rounds every applicant's cursor is
non-decreasing and bounded by its preference-list length; and (3) each round
advances the cursor of every applicant it rejects by exactly one. -/
theorem c8_termination_bound (students : List Student) (schools : List School)
    (hsid : (students.map (fun s => s.id)).Nodup)
    (hhid : (schools.map (fun h => h.id)).Nodup)
    (hc0 : ∀ s ∈ students, s.best_unrejected = 0)
    (hh0 : ∀ h ∈ schools, h.held = [])
    (hne : ∀ s ∈ students, s.preferences ≠ [])
    (hpv : ∀ s ∈ students, ∀ p ∈ s.preferences, ∃ h ∈ schools, h.id = p) :
    daLoop (totalPrefLen students) (daInit students schools) ≠
      DAOut.outOfFuel ∧
    (∀ k st st', daIter k (daInit students schools) = some st →
      daStep st = some st' →
      List.Forall₂ (fun s s' => s'.id = s.id ∧
        s.best_unrejected ≤ s'.best_unrejected ∧
        s'.best_unrejected ≤ s'.preferences.length) st.students st'.students) ∧
    (∀ k st schs' rej, daIter k (daInit students schools) = some st →
      run_round st.students st.schools st.to_apply =
        some (Sum.inr (schs', rej)) →
      ∀ s ∈ st.students, s.id ∈ rej →
        findStudent? (advanceCursors st.students rej) s.id =
          some { s with best_unrejected := s.best_unrejected + 1 }) := by
  have hinv0 := daInit_inv hsid hhid hc0 hh0
  have htac0 := daInit_tac students schools hc0 hne
  refine ⟨?_, ?_, ?_⟩
  · exact daLoop_no_fuel (totalPrefLen students) hinv0 htac0
      (fun _ => Nat.sub_le _ _)
  · intro k st st' hiter hstep
    obtain ⟨inv, _⟩ := daIter_inv hinv0 htac0 hiter
    exact (daStep_spec inv hstep).2.2.2.2.2.2.2
  · intro k st schs' rej hiter hrr s hs hrej
    obtain ⟨inv, _⟩ := daIter_inv hinv0 htac0 hiter
    rw [findStudent?_advance, findStudent?_eq_self inv.sNodup hs]
    simp [hrej]

theorem c8_termination_bound_witness :
    ((([⟨1, [10, 20], 0⟩, ⟨2, [10, 20], 0⟩] : List Student).map
        (fun s => s.id)).Nodup ∧
      (([⟨10, [1, 2], 1, []⟩, ⟨20, [1, 2], 1, []⟩] : List School).map
        (fun h => h.id)).Nodup ∧
      (∀ s ∈ ([⟨1, [10, 20], 0⟩, ⟨2, [10, 20], 0⟩] : List Student),
        s.best_unrejected = 0) ∧
      (∀ h ∈ ([⟨10, [1, 2], 1, []⟩, ⟨20, [1, 2], 1, []⟩] : List School),
        h.held = []) ∧
      (∀ s ∈ ([⟨1, [10, 20], 0⟩, ⟨2, [10, 20], 0⟩] : List Student),
        s.preferences ≠ []) ∧
      (∀ s ∈ ([⟨1, [10, 20], 0⟩, ⟨2, [10, 20], 0⟩] : List Student),
        ∀ p ∈ s.preferences,
          ∃ h ∈ ([⟨10, [1, 2], 1, []⟩, ⟨20, [1, 2], 1, []⟩] : List School),
            h.id = p)) ∧
    (daLoop (totalPrefLen [⟨1, [10, 20], 0⟩, ⟨2, [10, 20], 0⟩])
        (daInit [⟨1, [10, 20], 0⟩, ⟨2, [10, 20], 0⟩]
          [⟨10, [1, 2], 1, []⟩, ⟨20, [1, 2], 1, []⟩]) ≠ DAOut.outOfFuel ∧
    (∀ k st st', daIter k (daInit [⟨1, [10, 20], 0⟩, ⟨2, [10, 20], 0⟩]
        [⟨10, [1, 2], 1, []⟩, ⟨20, [1, 2], 1, []⟩]) = some st →
      daStep st = some st' →
      List.Forall₂ (fun s s' => s'.id = s.id ∧
        s.best_unrejected ≤ s'.best_unrejected ∧
        s'.best_unrejected ≤ s'.preferences.length) st.students st'.students) ∧
    (∀ k st schs' rej, daIter k (daInit [⟨1, [10, 20], 0⟩, ⟨2, [10, 20], 0⟩]
        [⟨10, [1, 2], 1, []⟩, ⟨20, [1, 2], 1, []⟩]) = some st →
      run_round st.students st.schools st.to_apply =
        some (Sum.inr (schs', rej)) →
      ∀ s ∈ st.students, s.id ∈ rej →
        findStudent? (advanceCursors st.students rej) s.id =
          some { s with best_unrejected := s.best_unrejected + 1 })) :=
  ⟨⟨by decide, by decide, by decide, by decide, by decide, by decide⟩,
    c8_termination_bound [⟨1, [10, 20], 0⟩, ⟨2, [10, 20], 0⟩] [⟨10, [1, 2], 1, []⟩, ⟨20, [1, 2], 1, []⟩] (by decide) (by decide) (by decide) (by decide)
      (by decide) (by decide)⟩
